import Mathlib

/-!
# Die2Sim: the JoSIM netlist writer

A shallow embedding of `src/ParserJosim.cpp`: the registration calls of `JoSimFile`
(`importCir`, `pushComp`, `pushPTL`), the renderers (`CompClass::to_cir`,
`PTLclass::to_cir`, `JoSimFile::createSubcktHeader`, `makeHeader`), the file copy `cpFile`
and the assembler `JoSimFile::genCir`.

Conventions of the embedding.
* A C++ `std::string` is a Lean `String`; one Lean `Char` stands for one C++ `char`.
* A `std::vector` is a `List`, `push_back` appends at the end.
* A member function that changes `this` takes the object and returns the new object next to
  the C++ return value.
* A call whose behaviour the C++ standard leaves undefined, or that the model does not
  cover, returns `none`.
* The target has a 32-bit `int`, a 64-bit `size_t` and a signed 8-bit `char`.
-/

set_option autoImplicit false

namespace Die2Sim

/-! ## Data model -/

/-- Modelled from the spec: the class is declared in the header `die2sim/ParserJosim.hpp`,
which is not among the sources; the fields are the ones `CompClass::create` assigns. -/
structure CompClass where
  name : String
  compType : String
  nets : List String
deriving DecidableEq

/-- Modelled from the spec: the class is declared in the header `die2sim/ParserJosim.hpp`,
which is not among the sources; the fields are the ones `PTLclass::create` assigns, and
`length` holds the `int` that `create` receives. -/
structure PTLclass where
  name : String
  nameNet : String
  length : Int
deriving DecidableEq

/-- Modelled from the spec: the class is declared in the header `die2sim/ParserJosim.hpp`,
which is not among the sources; the fields are the ones the member functions of
`ParserJosim.cpp` read and write. -/
structure JoSimFile where
  subcktName : String
  fileNamesImport : List String
  comps : List CompClass
  PTLs : List PTLclass
  subcktNetName : List String
  subcktNetDes : List String
deriving DecidableEq

/-- The model before any registration call: every vector is empty. -/
def JoSimFile.empty (subcktName : String) : JoSimFile :=
  ⟨subcktName, [], [], [], [], []⟩

/-! ## Library functions the source calls -/

/-- The sign of `std::string::compare`: characters are compared by code from the left, a
proper initial segment is smaller. -/
def stdCompare : List Char → List Char → Int
  | [], [] => 0
  | [], _ :: _ => -1
  | _ :: _, [] => 1
  | a :: as, b :: bs =>
    if a.toNat < b.toNat then -1
    else if b.toNat < a.toNat then 1
    else stdCompare as bs

/-- Conversion of an `unsigned int` argument to the `int` parameter of `PTLclass::create`
(32-bit two's complement). -/
def unsignedToInt (len : Nat) : Int :=
  if len % 2 ^ 32 < 2 ^ 31 then ((len % 2 ^ 32 : Nat) : Int)
  else ((len % 2 ^ 32 : Nat) : Int) - 2 ^ 32

/-! ## Registration -/

/-- `JoSimFile::importCir`. -/
def JoSimFile.importCir (self : JoSimFile) (fileName : String) : Int × JoSimFile :=
  (1, { self with fileNamesImport := self.fileNamesImport ++ [fileName] })

/-- `CompClass::create`. -/
def CompClass.create (CompName compTypeName : String) (netsIn : List String) :
    Int × CompClass :=
  (0, { name := CompName, compType := compTypeName, nets := netsIn })

/-- `PTLclass::create`. -/
def PTLclass.create (PTLname NetName : String) (PTLlength : Int) : Int × PTLclass :=
  (0, { name := PTLname, nameNet := NetName, length := PTLlength })

/-- `JoSimFile::pushComp`. The component is pushed first; for the type `"PAD"` the port
vectors receive `netNames.back()` and `name`. `back()` of an empty vector is undefined. -/
def JoSimFile.pushComp (self : JoSimFile) (name compTypeName : String)
    (netNames : List String) : Option (Int × JoSimFile) :=
  let fooComp := (CompClass.create name compTypeName netNames).2
  let self1 := { self with comps := self.comps ++ [fooComp] }
  if stdCompare compTypeName.data "PAD".data = 0 then
    match netNames.getLast? with
    | none => none
    | some b =>
      some (0, { self1 with
        subcktNetName := self1.subcktNetName ++ [b]
        subcktNetDes := self1.subcktNetDes ++ [name] })
  else some (0, self1)

/-- `JoSimFile::pushPTL`. -/
def JoSimFile.pushPTL (self : JoSimFile) (name netName : String) (len : Nat) :
    Int × JoSimFile :=
  let fooPTL := (PTLclass.create name netName (unsignedToInt len)).2
  (0, { self with PTLs := self.PTLs ++ [fooPTL] })

/-- One registration call with its arguments. -/
inductive Call where
  | importCir (fileName : String)
  | pushComp (name compTypeName : String) (netNames : List String)
  | pushPTL (name netName : String) (len : Nat)
deriving DecidableEq

/-- The call passes at least one net when it registers a component. -/
def Call.hasNet : Call → Prop
  | .pushComp _ _ netNames => netNames ≠ []
  | _ => True

instance (c : Call) : Decidable c.hasNet := by
  cases c <;> unfold Call.hasNet <;> infer_instance

/-- The model after one registration call. -/
def JoSimFile.call (self : JoSimFile) : Call → Option JoSimFile
  | .importCir fileName => some (self.importCir fileName).2
  | .pushComp name compTypeName netNames =>
    (self.pushComp name compTypeName netNames).map Prod.snd
  | .pushPTL name netName len => some (self.pushPTL name netName len).2

/-- The model after a sequence of registration calls, in order. -/
def JoSimFile.run (self : JoSimFile) : List Call → Option JoSimFile
  | [] => some self
  | c :: cs => (self.call c).bind fun self1 => self1.run cs

/-! ## The output stream of the renderers -/

/-- The state of a `std::stringstream` that the renderers touch: the text written so far,
the field width of the next insertion, the adjustment (right unless `left` was inserted)
and the floating-point precision. The fill character is the space throughout. -/
structure SStream where
  buf : String
  width : Nat
  leftAdjust : Bool
  precision : Nat
deriving DecidableEq

/-- A freshly constructed stream: empty, width 0, right adjustment, precision 6. -/
def SStream.init : SStream := ⟨"", 0, false, 6⟩

/-- The manipulator `std::left`. -/
def SStream.left (ss : SStream) : SStream := { ss with leftAdjust := true }

/-- The manipulator `std::setw`. -/
def SStream.setw (ss : SStream) (n : Nat) : SStream := { ss with width := n }

/-- The manipulator `std::setprecision`. -/
def SStream.setprecision (ss : SStream) (n : Nat) : SStream := { ss with precision := n }

/-- The fill characters an insertion of `len` characters receives. -/
def SStream.fillers (ss : SStream) (len : Nat) : String :=
  String.mk (List.replicate (ss.width - len) ' ')

/-- Insertion of a string: it is padded up to the width, never cut, and the width falls
back to 0. -/
def SStream.put (ss : SStream) (s : String) : SStream :=
  let padded :=
    if ss.leftAdjust then s ++ ss.fillers s.length else ss.fillers s.length ++ s
  { ss with buf := ss.buf ++ padded, width := 0 }

/-- Insertion of a non-negative `int`. -/
def SStream.putNat (ss : SStream) (n : Nat) : SStream := ss.put (Nat.repr n)

/-- The member `str()`. -/
def SStream.str (ss : SStream) : String := ss.buf

/-! ### Values of type `double` and their output in the default notation

A `double` is an IEEE 754 binary64 number: a sign and a magnitude that is zero, infinite or
`m * 2 ^ e` with `m < 2 ^ 53` and `-1074 ≤ e`, below `2 ^ 1024`. Arithmetic rounds the exact
result to the nearest such number, a tie going to the even `m`. With `floatfield` unset a
`double` is printed as `printf` prints it under `%g` with the stream's precision, from its
exact value. -/

/-- The nearest integer to `num / den`, a tie going to the even neighbour. -/
def roundHalfEven (num den : Nat) : Nat :=
  let q := num / den
  let r := num % den
  if 2 * r < den then q
  else if den < 2 * r then q + 1
  else if q % 2 = 0 then q else q + 1

/-- The number of digits of `n` in base `b` less one (`fuel` bounds the recursion). -/
def floorLog (b : Nat) : Nat → Nat → Nat
  | 0, _ => 0
  | fuel + 1, n => if n < b then 0 else floorLog b fuel (n / b) + 1

/-- The least `j ≥ k` with `den ≤ num * b ^ j` (`fuel` bounds the search). -/
def leadShift (b : Nat) : Nat → Nat → Nat → Nat → Nat
  | 0, _, _, k => k
  | fuel + 1, num, den, k =>
    if den ≤ num * b ^ k then k else leadShift b fuel num den (k + 1)

/-- The exponent `e` of a positive ratio in base `b`: `b ^ e ≤ num / den < b ^ (e + 1)`. -/
def exponentOf (b num den : Nat) : Int :=
  if den ≤ num then (floorLog b (num / den) (num / den) : Int)
  else -(leadShift b den num den 0 : Int)

/-- The ratio scaled to `P` digits before the point and rounded. -/
def scaleRound (P num den : Nat) (e : Int) : Nat :=
  let s : Int := (P : Int) - 1 - e
  if 0 ≤ s then roundHalfEven (num * 10 ^ s.toNat) den
  else roundHalfEven num (den * 10 ^ (-s).toNat)

/-- The `P` significant digits of a positive ratio, as a number, and the decimal exponent `X`
of the rounded value: rounding up to `10 ^ P` moves to the next exponent. -/
def significand (P num den : Nat) : Nat × Int :=
  let e := exponentOf 10 num den
  let m0 := scaleRound P num den e
  if 10 ^ P ≤ m0 then (m0 / 10, e + 1) else (m0, e)

/-- Removal of the trailing zeros of a digit string. -/
def stripZeros (ds : List Char) : List Char :=
  (ds.reverse.dropWhile fun c => c = '0').reverse

/-- Fixed notation of `m * 10 ^ (X - P + 1)` with `P - 1 - X` digits after the point, the
trailing zeros and a bare point removed. -/
def fixedDigits (P m : Nat) (X : Int) : List Char :=
  let ds := (Nat.repr m).data
  let f := ((P : Int) - 1 - X).toNat
  let all := List.replicate (f + 1 - ds.length) '0' ++ ds
  let ip := all.take (all.length - f)
  let fp := stripZeros (all.drop (all.length - f))
  if fp = [] then ip else ip ++ '.' :: fp

/-- The digits of `m` with the point after the first, the trailing zeros and a bare point
removed. -/
def mantissaDigits (m : Nat) : List Char :=
  let ds := (Nat.repr m).data
  let fp := stripZeros (ds.drop 1)
  if fp = [] then ds.take 1 else ds.take 1 ++ '.' :: fp

/-- The exponent part: `e`, the sign and at least two digits. -/
def exponentDigits (X : Int) : List Char :=
  let ex := (Nat.repr X.natAbs).data
  'e' :: (if X < 0 then '-' else '+') :: (List.replicate (2 - ex.length) '0' ++ ex)

/-- The text of `%g` at the given precision for the ratio `num / den` with a sign: `P`
significant digits, fixed notation when the exponent `X` of the rounded value satisfies
`-4 ≤ X < P` and exponent notation otherwise. -/
def fmtGeneral (precision : Nat) (neg : Bool) (num den : Nat) : String :=
  let P := if precision = 0 then 1 else precision
  let sign := if neg then "-" else ""
  if num = 0 then sign ++ "0"
  else
    let mX := significand P num den
    if -4 ≤ mX.2 ∧ mX.2 < (P : Int) then sign ++ String.mk (fixedDigits P mX.1 mX.2)
    else sign ++ String.mk (mantissaDigits mX.1 ++ exponentDigits mX.2)

/-- A value of type `double` that is not a NaN: the sign, whether it is infinite, and the
exact magnitude `num / den` of a finite value. -/
structure Double where
  neg : Bool
  inf : Bool
  num : Nat
  den : Nat
deriving DecidableEq

/-- The least magnitude that is too large for a finite `double`. -/
def overflowBound : Nat := 2 ^ 1024

/-- The `double` nearest to the ratio `num / den` with the given sign: the exponent of the
last place is that of the 53rd binary digit and at least `-1074`, and a result of
`overflowBound` or more is infinite. -/
def roundDouble (neg : Bool) (num den : Nat) : Double :=
  if num = 0 then ⟨neg, false, 0, 1⟩
  else
    let e : Int := max (exponentOf 2 num den - 52) (-1074)
    let m :=
      if 0 ≤ e then roundHalfEven num (den * 2 ^ e.toNat)
      else roundHalfEven (num * 2 ^ (-e).toNat) den
    let rnum := if 0 ≤ e then m * 2 ^ e.toNat else m
    let rden := if 0 ≤ e then 1 else 2 ^ (-e).toNat
    ⟨neg, decide (overflowBound * rden ≤ rnum), rnum, rden⟩

/-- The text of a `double` in the default notation. -/
def fmtDouble (precision : Nat) (d : Double) : String :=
  if d.inf then (if d.neg then "-inf" else "inf")
  else fmtGeneral precision d.neg d.num d.den

/-- Insertion of a `double`. -/
def SStream.putDouble (ss : SStream) (d : Double) : SStream :=
  ss.put (fmtDouble ss.precision d)

/-! ## Renderers -/

/-- `CompClass::to_cir`. -/
def CompClass.to_cir (self : CompClass) : String :=
  let ss := SStream.init
  let ss := ss.left
  let ss := (ss.setw 20).put ("X" ++ self.name)
  let ss := (ss.setw 20).put self.compType
  let ss := self.nets.foldl (fun ss it => (ss.setw 7).put it) ss
  ss.str

/-- Modelled from the spec: `speedConstant` is a macro of the header
`die2sim/ParserJosim.hpp`, which is not among the sources; the spec calls it a fixed
physical constant and uses the value `0.1`. It is a parameter here: a decimal floating
literal `digits / 10 ^ scale` of type `double`, within the range of the type as a literal
has to be. -/
structure SpeedConstant where
  digits : Nat
  scale : Nat
  inRange : digits < 10 ^ (scale + 308)

/-- The value of the literal: the nearest `double`. -/
def SpeedConstant.value (speedConstant : SpeedConstant) : Double :=
  roundDouble false speedConstant.digits (10 ^ speedConstant.scale)

/-- The product `length * speedConstant`: the `int` is converted to `double`, which is exact
for a 32-bit `int`, and the exact product with the value of the literal is rounded. -/
def delay (speedConstant : SpeedConstant) (length : Int) : Double :=
  let c := speedConstant.value
  roundDouble (decide (length < 0)) (length.natAbs * c.num) c.den

/-- `PTLclass::to_cir`. -/
def PTLclass.to_cir (speedConstant : SpeedConstant) (self : PTLclass) : String :=
  let ss := SStream.init
  let ss := (ss.setw 7).put ("T" ++ self.name)
  let ss := (ss.setw 6).put (self.nameNet ++ "A")
  let ss := (ss.setw 4).putNat 0
  let ss := (ss.setw 6).put (self.nameNet ++ "B")
  let ss := (ss.setw 4).putNat 0
  let ss := ss.setprecision 2
  let ss := (ss.setw 0).put "  LOSSLESS Z0=5.00  TD="
  let ss := ss.putDouble (delay speedConstant self.length)
  let ss := ss.put "p"
  ss.str

/-- `JoSimFile::createSubcktHeader`. -/
def JoSimFile.createSubcktHeader (self : JoSimFile) : String :=
  let subcktStr := "* "
  let subcktStr := self.subcktNetDes.foldl (fun acc d => acc ++ ("\t" ++ d)) subcktStr
  let subcktStr := subcktStr ++ ("\n.SUBCKT " ++ self.subcktName)
  let subcktStr := self.subcktNetName.foldl (fun acc n => acc ++ ("\t" ++ n)) subcktStr
  subcktStr

/-! ## Section banner -/

/-- A run of `k` characters `=`. -/
def equalsRun (k : Nat) : String := String.mk (List.replicate k '=')

/-- The largest `int`. -/
def INT_MAX : Nat := 2 ^ 31 - 1

/-- The bound of both loops of `makeHeader`, `(74 - HeaderName.length())/2-1`, computed as
the source computes it: in the unsigned 64-bit type of `length()`, where a difference below
zero wraps around. -/
def headerBound (len : Nat) : Nat :=
  (((74 + 2 ^ 64 - len % 2 ^ 64) % 2 ^ 64) / 2 + 2 ^ 64 - 1) % 2 ^ 64

/-- The body `foo = foo + "="` run `n` times. -/
def appendEquals : Nat → String → String
  | 0, foo => foo
  | n + 1, foo => appendEquals n (foo ++ "=")

/-- The loop `for(int i = 0; i < bound; i++) foo = foo + "="`. The counter is an `int`
compared as unsigned: with a bound above `INT_MAX` the counter reaches `INT_MAX` inside the
loop and `i++` overflows, which is undefined. -/
def equalsLoop (bound : Nat) (foo : String) : Option String :=
  if bound ≤ INT_MAX then some (appendEquals bound foo) else none

/-- `makeHeader`. The rule of 74 characters `=` inside the first and the last literal of
the source is written `equalsRun 74`. -/
def makeHeader (HeaderName : String) : Option String :=
  let foo := "\n\n* " ++ equalsRun 74 ++ "\n* "
  (equalsLoop (headerBound HeaderName.length) foo).bind fun foo =>
    let foo := foo ++ " " ++ HeaderName ++ " "
    (equalsLoop (headerBound HeaderName.length) foo).bind fun foo =>
      some (foo ++ ("\n* " ++ equalsRun 74 ++ "\n\n"))

/-- `makeFileHeader`; `asctime` is the text the C library returns for the current time. -/
def makeFileHeader (asctime : String) (_someText : String) : String :=
  let foo := "* JoSIM file generated with Die2Sim, " ++ asctime
  foo ++ "\n* Jude de Villiers, Stellenbosch University\n\n"

/-! ## Files -/

/-- The files the program sees: `content path` is the byte sequence of a file that can be
opened for reading (`none` when it cannot), `writable path` tells whether the path can be
opened for writing, the file being created when absent. -/
structure FileSys where
  content : String → Option String
  writable : String → Bool

/-- The file at `path` replaced by `data`. -/
def FileSys.write (fs : FileSys) (path data : String) : FileSys :=
  { fs with content := fun p => if p = path then some data else fs.content p }

/-- The bytes `data` appended to the file at `path`, which is created when absent. -/
def FileSys.append (fs : FileSys) (path data : String) : FileSys :=
  fs.write path ((fs.content path).getD "" ++ data)

/-- The macro `EOF`. -/
def EOF : Int := -1

/-- The value `fgetc` returns for a byte read: the byte as an `unsigned char`. -/
def fgetcValue (b : Char) : Int := ((b.toNat % 256 : Nat) : Int)

/-- Conversion of an `int` to `char`, a signed 8-bit type on the targets of the program. -/
def toChar (v : Int) : Int := (v + 128) % 256 - 128

/-- The byte `fputc` writes for its argument: the argument as an `unsigned char`. -/
def fputcByte (c : Int) : Char := Char.ofNat (c % 256).toNat

/-- The copy loop of `cpFile` on the bytes still unread and the bytes written so far:
`c = fgetc(inFile)` is stored in a `char` and compared with `EOF`. -/
def copyLoop : List Char → List Char → List Char
  | [], out => out
  | b :: rest, out =>
    let c := toChar (fgetcValue b)
    if c = EOF then out else copyLoop rest (out ++ [fputcByte c])

/-- `cpFile`. Distinct path strings name distinct files. The copy of a file onto itself is
outside the model (`none`): the loop then reads what it appends, and what it sees depends
on the buffers of the C library. The second test repeats `inFile==NULL`, so a destination
that cannot be opened goes unnoticed and `fputc` receives a null stream, which is
undefined. -/
def cpFile (fromFile toFile : String) (fs : FileSys) : Option (Int × FileSys) :=
  match fs.content fromFile with
  | none => some (0, fs)
  | some inp =>
    if fromFile = toFile then none
    else if fs.writable toFile then
      some (1, fs.append toFile (String.mk (copyLoop inp.data [])))
    else none

/-- The import loop of `genCir`; the return value of `cpFile` is dropped. -/
def importAll (toFile : String) : List String → FileSys → Option FileSys
  | [], fs => some fs
  | itFn :: rest, fs => (cpFile itFn toFile fs).bind fun r => importAll toFile rest r.2

/-- The lines `to_cir() << endl` of a list of records. -/
def renderAll {α : Type} (render : α → String) : List α → String
  | [] => ""
  | x :: xs => render x ++ "\n" ++ renderAll render xs

/-- `JoSimFile::genCir`; console output is left out. -/
def JoSimFile.genCir (asctime : String) (speedConstant : SpeedConstant) (self : JoSimFile)
    (fileName : String) (fs : FileSys) : Option (Int × FileSys) :=
  if fs.writable fileName = false then some (0, fs)
  else
    let fs := fs.write fileName (makeFileHeader asctime "")
    (importAll fileName self.fileNamesImport fs).bind fun fs =>
    (makeHeader self.subcktName).bind fun h1 =>
    (makeHeader "Components").bind fun h2 =>
    (makeHeader "Passive Transmission Lines").bind fun h3 =>
      let text := h1 ++ "\n" ++ (self.createSubcktHeader ++ "\n") ++ (h2 ++ "\n")
        ++ renderAll CompClass.to_cir self.comps ++ (h3 ++ "\n")
        ++ renderAll (PTLclass.to_cir speedConstant) self.PTLs
        ++ (".ends Created_subckt" ++ "\n")
      some (1, fs.append fileName text)

/-! ## The whitespace tokenizer of the consumer and the layouts of the spec -/

/-- The C classification `isspace`. -/
def isspace (c : Char) : Bool :=
  c = ' ' || c = '\t' || c = '\n' || c = '\x0b' || c = '\x0c' || c = '\r'

/-- Splitting on whitespace with `cur` the token being read: a run of whitespace ends a
token, empty tokens are not produced. -/
def tokensAux : List Char → List Char → List (List Char)
  | [], cur => if cur = [] then [] else [cur]
  | c :: cs, cur =>
    if isspace c then
      if cur = [] then tokensAux cs [] else cur :: tokensAux cs []
    else tokensAux cs (cur ++ [c])

/-- The whitespace-separated tokens of a line. -/
def tokens (line : String) : List String := (tokensAux line.data []).map String.mk

/-- A string left-justified in a field of minimum width `w`. -/
def ljust (w : Nat) (s : String) : String :=
  s ++ String.mk (List.replicate (w - s.length) ' ')

/-- A string right-justified in a field of minimum width `w`. -/
def rjust (w : Nat) (s : String) : String :=
  String.mk (List.replicate (w - s.length) ' ') ++ s

/-- The concatenation of a list of strings. -/
def concatAll : List String → String
  | [] => ""
  | s :: ss => s ++ concatAll ss

/-- The string `sep` between each two neighbours of a list of strings. -/
def joinWith (sep : String) : List String → String
  | [] => ""
  | [s] => s
  | s :: t :: ss => s ++ sep ++ joinWith sep (t :: ss)

/-- The port header as the spec words it: the comment line `* d1<tab>d2<tab>...` with the
first designator directly after `* `, then the declaration line with a tab before every
net. -/
def renderPortHeader_spec (self : JoSimFile) : String :=
  "* " ++ joinWith "\t" self.subcktNetDes ++ "\n"
    ++ (".SUBCKT " ++ self.subcktName ++ concatAll (self.subcktNetName.map fun n => "\t" ++ n))

/-- The label line of a banner with `k` characters `=` on either side of the label. -/
def labelLine (k : Nat) (label : String) : String :=
  "* " ++ equalsRun k ++ " " ++ label ++ " " ++ equalsRun k

/-- The banner with `k` characters `=` on either side of the label, between two rules of
74 characters `=`. -/
def banner (k : Nat) (label : String) : String :=
  "\n\n* " ++ equalsRun 74 ++ "\n" ++ labelLine k label ++ "\n* " ++ equalsRun 74 ++ "\n\n"

/-- The banner as the spec words it for a label of any length: `k = (74 - len) / 2 - 1`,
and `k = 0` when that value is not positive (the subtractions of natural numbers stop
at 0). -/
def makeHeader_spec (label : String) : String :=
  banner ((74 - label.length) / 2 - 1) label

/-- The fields of a component line in order, each with its minimum width: `"X"` joined to
the name (20), the type (20), every net (7). -/
def CompClass.fields (self : CompClass) : List (Nat × String) :=
  (20, "X" ++ self.name) :: (20, self.compType) :: self.nets.map fun n => (7, n)

/-- The line made of left-justified fields. -/
def fieldsLine (fs : List (Nat × String)) : String :=
  concatAll (fs.map fun p => ljust p.1 p.2)

/-- Every field but the last on the line is shorter than its width. -/
def CompClass.fits (self : CompClass) : Prop :=
  ∀ p ∈ self.fields.dropLast, p.2.length < p.1

instance (self : CompClass) : Decidable self.fits := by
  unfold CompClass.fits; infer_instance

/-- A non-empty string without whitespace. -/
def isToken (s : String) : Prop :=
  s.data ≠ [] ∧ ∀ c ∈ s.data, isspace c = false

instance (s : String) : Decidable (isToken s) := by
  unfold isToken; infer_instance

/-- A string without whitespace. -/
def noSpace (s : String) : Prop := ∀ c ∈ s.data, isspace c = false

instance (s : String) : Decidable (noSpace s) := by
  unfold noSpace; infer_instance

/-! ## The number formats in the words of the standards -/

/-- The natural number `m` is nearest to `x`, and even when `x` lies halfway between two. -/
def IsNearestEven (x : ℚ) (m : Nat) : Prop :=
  |x - m| ≤ 1 / 2 ∧ (|x - m| = 1 / 2 → m % 2 = 0)

/-- The conversion of a positive `v` to two significant digits: with `e` the decimal
exponent of `v`, the value is scaled to two digits before the point and rounded to the
nearest integer `m0`, ties to even; the digits are `m = m0` and the exponent `X = e`, or
`m = 10` and `X = e + 1` when the rounding reaches 100. -/
def IsTwoDigitRounding (v : ℚ) (m : Nat) (X : Int) : Prop :=
  ∃ (e : Int) (m0 : Nat), (10 : ℚ) ^ e ≤ v ∧ v < (10 : ℚ) ^ (e + 1)
    ∧ IsNearestEven (v * (10 : ℚ) ^ (1 - e)) m0
    ∧ m = (if m0 = 100 then 10 else m0) ∧ X = (if m0 = 100 then e + 1 else e)

/-- The two digits of `m`. -/
def digitPair (m : Nat) : String :=
  String.mk [Nat.digitChar (m / 10), Nat.digitChar (m % 10)]

/-- The two digits of `m`, a zero at the end removed. -/
def digitsTrimmed (m : Nat) : String :=
  if m % 10 = 0 then String.mk [Nat.digitChar (m / 10)] else digitPair m

/-- The two digits of `m` with a point between them, a zero at the end removed together
with the point. -/
def digitsPointed (m : Nat) : String :=
  if m % 10 = 0 then String.mk [Nat.digitChar (m / 10)]
  else String.mk [Nat.digitChar (m / 10), '.', Nat.digitChar (m % 10)]

/-- The text of the value `m * 10 ^ (X - 1)` with two digits `m` under `%.2g`: fixed notation
for `-4 ≤ X < 2`, else exponent notation with a sign and at least two digits in the
exponent; trailing zeros and a bare point are removed. -/
def generalText_spec (m : Nat) (X : Int) : String :=
  if X = 1 then digitPair m
  else if X = 0 then digitsPointed m
  else if X = -1 then "0." ++ digitsTrimmed m
  else if X = -2 then "0.0" ++ digitsTrimmed m
  else if X = -3 then "0.00" ++ digitsTrimmed m
  else if X = -4 then "0.000" ++ digitsTrimmed m
  else digitsPointed m ++ "e" ++ (if X < 0 then "-" else "+")
    ++ (if X.natAbs < 10 then "0" else "") ++ Nat.repr X.natAbs

/-- The string `text` is the `double` `d` in the default notation at precision 2: `inf` for
an infinite value, `0` for zero, else the two-digit rounding of the magnitude; a negative
value has a `-` in front. -/
def IsGeneralText (d : Double) (text : String) : Prop :=
  (d.inf = true ∧ text = (if d.neg then "-" else "") ++ "inf")
  ∨ (d.inf = false ∧ d.num = 0 ∧ text = (if d.neg then "-" else "") ++ "0")
  ∨ (d.inf = false ∧ 0 < d.num
      ∧ ∃ (m : Nat) (X : Int), IsTwoDigitRounding ((d.num : ℚ) / d.den) m X
        ∧ text = (if d.neg then "-" else "") ++ generalText_spec m X)

/-- The `double` `d` is the value `v ≥ 0` with the sign `neg`, rounded as IEEE 754 binary64
rounds: with `E` the binary exponent of `v`, the last place has the exponent
`max (E - 52) (-1074)`, the magnitude of `d` is the nearest multiple `m` of that place, ties
to even, and `d` is infinite when that reaches `overflowBound`. -/
def IsNearestDouble (neg : Bool) (v : ℚ) (d : Double) : Prop :=
  d.neg = neg ∧ 0 < d.den
    ∧ ((v = 0 ∧ d.inf = false ∧ d.num = 0)
      ∨ (0 < v ∧ ∃ (E : Int) (m : Nat), (2 : ℚ) ^ E ≤ v ∧ v < (2 : ℚ) ^ (E + 1)
          ∧ IsNearestEven (v / (2 : ℚ) ^ max (E - 52) (-1074)) m
          ∧ (d.num : ℚ) / d.den = m * (2 : ℚ) ^ max (E - 52) (-1074)
          ∧ (d.inf = true ↔ (overflowBound : ℚ) ≤ m * (2 : ℚ) ^ max (E - 52) (-1074))))

/-- The `double` `d` is the product `length * speedConstant` as the machine computes it:
the literal is rounded to a finite `double` `c`, and the exact product of the integer and
`c` is rounded again. -/
def IsDelay (speedConstant : SpeedConstant) (length : Int) (d : Double) : Prop :=
  ∃ c : Double,
    IsNearestDouble false ((speedConstant.digits : ℚ) / (10 : ℚ) ^ speedConstant.scale) c
    ∧ c.inf = false
    ∧ IsNearestDouble (decide (length < 0)) ((length.natAbs : ℚ) * ((c.num : ℚ) / c.den)) d

/-! ## Registration: lemmas -/

theorem stdCompare_self (a : List Char) : stdCompare a a = 0 := by
  induction a with
  | nil => rfl
  | cons x xs ih => simp [stdCompare, ih]

theorem stdCompare_eq_zero {a b : List Char} (h : stdCompare a b = 0) : a = b := by
  induction a generalizing b with
  | nil =>
    cases b with
    | nil => rfl
    | cons y ys => simp [stdCompare] at h
  | cons x xs ih =>
    cases b with
    | nil => simp [stdCompare] at h
    | cons y ys =>
      unfold stdCompare at h
      by_cases h1 : x.toNat < y.toNat
      · rw [if_pos h1] at h
        exact absurd h (by decide)
      · rw [if_neg h1] at h
        by_cases h2 : y.toNat < x.toNat
        · rw [if_pos h2] at h
          exact absurd h (by decide)
        · rw [if_neg h2] at h
          have hxy : x = y := by
            apply Char.ext
            apply UInt32.ext
            have : x.toNat = y.toNat := by omega
            exact this
          rw [hxy, ih h]

theorem stdCompare_eq_zero_iff (a b : String) : stdCompare a.data b.data = 0 ↔ a = b := by
  constructor
  · intro h
    exact String.ext (stdCompare_eq_zero h)
  · rintro rfl
    exact stdCompare_self _

theorem pushComp_pad (self : JoSimFile) (name : String) (netNames : List String)
    (h : netNames ≠ []) :
    self.pushComp name "PAD" netNames = some (0, { self with
      comps := self.comps ++ [⟨name, "PAD", netNames⟩]
      subcktNetName := self.subcktNetName ++ [netNames.getLast h]
      subcktNetDes := self.subcktNetDes ++ [name] }) := by
  have hc : stdCompare "PAD".data "PAD".data = 0 := stdCompare_self _
  unfold JoSimFile.pushComp
  rw [if_pos hc, List.getLast?_eq_getLast _ h]
  rfl

theorem pushComp_other (self : JoSimFile) (name compTypeName : String)
    (netNames : List String) (h : compTypeName ≠ "PAD") :
    self.pushComp name compTypeName netNames = some (0, { self with
      comps := self.comps ++ [⟨name, compTypeName, netNames⟩] }) := by
  have hc : ¬ stdCompare compTypeName.data "PAD".data = 0 :=
    fun h0 => h ((stdCompare_eq_zero_iff _ _).1 h0)
  unfold JoSimFile.pushComp
  rw [if_neg hc]
  rfl

theorem run_ports_parallel (calls : List Call) :
    ∀ self : JoSimFile, (∀ c ∈ calls, c.hasNet) →
      self.subcktNetName.length = self.subcktNetDes.length →
      ∃ m, self.run calls = some m ∧ m.subcktNetName.length = m.subcktNetDes.length := by
  induction calls with
  | nil => intro self _ hlen; exact ⟨self, rfl, hlen⟩
  | cons c cs ih =>
    intro self hall hlen
    have hc : c.hasNet := hall c (List.mem_cons_self _ _)
    have hcs : ∀ d ∈ cs, d.hasNet := fun d hd => hall d (List.mem_cons_of_mem _ hd)
    cases c with
    | importCir fileName =>
      exact ih (self.importCir fileName).2 hcs hlen
    | pushPTL name netName len =>
      exact ih (self.pushPTL name netName len).2 hcs hlen
    | pushComp name compTypeName netNames =>
      have hne : netNames ≠ [] := hc
      by_cases hp : compTypeName = "PAD"
      · subst hp
        have hstep := pushComp_pad self name netNames hne
        have hrun : self.run (Call.pushComp name "PAD" netNames :: cs)
            = ({ self with
                comps := self.comps ++ [⟨name, "PAD", netNames⟩]
                subcktNetName := self.subcktNetName ++ [netNames.getLast hne]
                subcktNetDes := self.subcktNetDes ++ [name] } : JoSimFile).run cs := by
          simp [JoSimFile.run, JoSimFile.call, hstep]
        rw [hrun]
        apply ih _ hcs
        simp [hlen]
      · have hstep := pushComp_other self name compTypeName netNames hp
        have hrun : self.run (Call.pushComp name compTypeName netNames :: cs)
            = ({ self with
                comps := self.comps ++ [⟨name, compTypeName, netNames⟩] } : JoSimFile).run cs := by
          simp [JoSimFile.run, JoSimFile.call, hstep]
        rw [hrun]
        exact ih _ hcs hlen

/-! ## Renderers: lemmas -/

theorem foldl_append_tab (l : List String) (acc : String) :
    l.foldl (fun acc d => acc ++ ("\t" ++ d)) acc
      = acc ++ concatAll (l.map fun d => "\t" ++ d) := by
  induction l generalizing acc with
  | nil => simp [concatAll]
  | cons d ds ih => simp [concatAll, ih, String.append_assoc]

theorem appendEquals_eq (k : Nat) (foo : String) :
    appendEquals k foo = foo ++ equalsRun k := by
  induction k generalizing foo with
  | zero =>
    apply String.ext
    simp [appendEquals, equalsRun]
  | succ n ih =>
    rw [appendEquals, ih]
    apply String.ext
    simp [equalsRun, List.replicate_succ]

theorem headerBound_small (n : Nat) (h : n ≤ 72) : headerBound n = (74 - n) / 2 - 1 := by
  interval_cases n <;> rfl

theorem headerBound_le (n : Nat) (h : n ≤ 72) : headerBound n ≤ INT_MAX := by
  rw [headerBound_small n h]
  have : INT_MAX = 2147483647 := by decide
  omega

theorem put_left_buf (ss : SStream) (w : Nat) (s : String) (h : ss.leftAdjust = true) :
    ((ss.setw w).put s).buf = ss.buf ++ ljust w s ∧ ((ss.setw w).put s).leftAdjust = true := by
  simp [SStream.put, SStream.setw, SStream.fillers, ljust, h]

theorem foldl_put_left (l : List String) (ss : SStream) (h : ss.leftAdjust = true) :
    (l.foldl (fun ss it => (ss.setw 7).put it) ss).buf
      = ss.buf ++ concatAll (l.map (ljust 7)) := by
  induction l generalizing ss with
  | nil => simp [concatAll]
  | cons x xs ih =>
    obtain ⟨hb, hl⟩ := put_left_buf ss 7 x h
    rw [List.foldl_cons, ih _ hl, hb]
    simp [concatAll, String.append_assoc]

theorem to_cir_eq (self : CompClass) :
    self.to_cir = ljust 20 ("X" ++ self.name) ++ ljust 20 self.compType
      ++ concatAll (self.nets.map (ljust 7)) := by
  have h0 : (SStream.init.left).leftAdjust = true := rfl
  obtain ⟨hb1, hl1⟩ := put_left_buf SStream.init.left 20 ("X" ++ self.name) h0
  obtain ⟨hb2, hl2⟩ := put_left_buf _ 20 self.compType hl1
  unfold CompClass.to_cir SStream.str
  dsimp only
  rw [foldl_put_left _ _ hl2, hb2, hb1]
  apply String.ext
  simp [SStream.init, SStream.left]

theorem to_cir_fields (self : CompClass) : self.to_cir = fieldsLine self.fields := by
  rw [to_cir_eq]
  simp [fieldsLine, CompClass.fields, concatAll, List.map_map, Function.comp_def,
    String.append_assoc]

theorem PTL_to_cir_eq (speedConstant : SpeedConstant) (self : PTLclass) :
    self.to_cir speedConstant
      = rjust 7 ("T" ++ self.name) ++ rjust 6 (self.nameNet ++ "A") ++ "   0"
        ++ rjust 6 (self.nameNet ++ "B") ++ "   0" ++ "  LOSSLESS Z0=5.00  TD="
        ++ fmtDouble 2 (delay speedConstant self.length) ++ "p" := by
  have hz : Nat.repr 0 = "0" := by decide
  have hr3 : List.replicate (4 - "0".length) ' ' = [' ', ' ', ' '] := by decide
  apply String.ext
  simp [PTLclass.to_cir, SStream.str, SStream.put, SStream.putNat, SStream.putDouble,
    SStream.setw, SStream.setprecision, SStream.fillers, SStream.init, rjust, hz, hr3]

/-! ## Tokenizer: lemmas -/

theorem tokensAux_token (t rest : List Char) (h : ∀ c ∈ t, isspace c = false) :
    ∀ cur, tokensAux (t ++ rest) cur = tokensAux rest (cur ++ t) := by
  induction t with
  | nil => intro cur; simp
  | cons c cs ih =>
    intro cur
    have hc : isspace c = false := h c (List.mem_cons_self _ _)
    have hcs : ∀ d ∈ cs, isspace d = false := fun d hd => h d (List.mem_cons_of_mem _ hd)
    rw [List.cons_append, tokensAux, hc]
    simp only [Bool.false_eq_true, if_false]
    rw [ih hcs]
    simp

theorem tokensAux_spaces_nil (k : Nat) (rest : List Char) :
    tokensAux (List.replicate k ' ' ++ rest) [] = tokensAux rest [] := by
  induction k with
  | zero => simp
  | succ n ih =>
    rw [List.replicate_succ, List.cons_append, tokensAux]
    have hs : isspace ' ' = true := by decide
    simp [hs, ih]

theorem tokensAux_spaces_cons (k : Nat) (rest cur : List Char) (hcur : cur ≠ []) :
    tokensAux (List.replicate (k + 1) ' ' ++ rest) cur = cur :: tokensAux rest [] := by
  rw [List.replicate_succ, List.cons_append, tokensAux]
  have hs : isspace ' ' = true := by decide
  simp [hs, hcur, tokensAux_spaces_nil]

theorem ljust_data (w : Nat) (s : String) :
    (ljust w s).data = s.data ++ List.replicate (w - s.length) ' ' := by
  simp [ljust]

theorem tokensAux_field (w : Nat) (t : String) (ht : isToken t) (rest cur : List Char) :
    tokensAux ((ljust w t).data ++ rest) cur
      = if t.length < w then (cur ++ t.data) :: tokensAux rest []
        else tokensAux rest (cur ++ t.data) := by
  rw [ljust_data, List.append_assoc, tokensAux_token _ _ ht.2]
  have hne : cur ++ t.data ≠ [] := by
    intro h
    exact ht.1 (List.append_eq_nil.1 h).2
  by_cases hw : t.length < w
  · rw [if_pos hw]
    obtain ⟨k, hk⟩ : ∃ k, w - t.length = k + 1 := ⟨w - t.length - 1, by omega⟩
    rw [hk, tokensAux_spaces_cons _ _ _ hne]
  · rw [if_neg hw]
    have hk : w - t.length = 0 := by omega
    rw [hk]
    simp

theorem fieldsLine_cons (p : Nat × String) (fs : List (Nat × String)) :
    (fieldsLine (p :: fs)).data = (ljust p.1 p.2).data ++ (fieldsLine fs).data := by
  simp [fieldsLine, concatAll]

theorem fieldsLine_nil : (fieldsLine []).data = [] := by
  simp [fieldsLine, concatAll]

theorem tokensAux_fits (fs : List (Nat × String)) :
    (∀ p ∈ fs, isToken p.2) → (∀ p ∈ fs.dropLast, p.2.length < p.1) →
      tokensAux (fieldsLine fs).data [] = fs.map fun p => p.2.data := by
  induction fs with
  | nil => intro _ _; simp [fieldsLine_nil, tokensAux]
  | cons p rest ih =>
    intro htok hfit
    have hp : isToken p.2 := htok p (List.mem_cons_self _ _)
    have hrest : ∀ q ∈ rest, isToken q.2 := fun q hq => htok q (List.mem_cons_of_mem _ hq)
    rw [fieldsLine_cons, tokensAux_field _ _ hp]
    cases rest with
    | nil =>
      have hne : p.2.data ≠ [] := hp.1
      split_ifs <;> simp [fieldsLine_nil, tokensAux, hne]
    | cons q r =>
      rw [List.dropLast_cons₂] at hfit
      have hpf : p.2.length < p.1 := hfit p (List.mem_cons_self _ _)
      have hrf : ∀ x ∈ (q :: r).dropLast, x.2.length < x.1 :=
        fun x hx => hfit x (List.mem_cons_of_mem _ hx)
      rw [if_pos hpf, ih hrest hrf]
      simp

theorem tokensAux_length_le (fs : List (Nat × String)) :
    fs ≠ [] → (∀ p ∈ fs, isToken p.2) →
      ∀ cur, (tokensAux (fieldsLine fs).data cur).length ≤ fs.length := by
  induction fs with
  | nil => intro h; exact absurd rfl h
  | cons p rest ih =>
    intro _ htok cur
    have hp : isToken p.2 := htok p (List.mem_cons_self _ _)
    have hrest : ∀ q ∈ rest, isToken q.2 := fun q hq => htok q (List.mem_cons_of_mem _ hq)
    rw [fieldsLine_cons, tokensAux_field _ _ hp]
    cases rest with
    | nil =>
      have hne : cur ++ p.2.data ≠ [] := fun h => hp.1 (List.append_eq_nil.1 h).2
      split_ifs <;> simp [fieldsLine_nil, tokensAux, hne]
    | cons q r =>
      have h1 := ih (List.cons_ne_nil q r) hrest
      split_ifs
      · have := h1 []
        simp only [List.length_cons] at this ⊢
        omega
      · have := h1 (cur ++ p.2.data)
        simp only [List.length_cons] at this ⊢
        omega

theorem tokensAux_length_lt (fs : List (Nat × String)) :
    (∀ p ∈ fs, isToken p.2) → (∃ p ∈ fs.dropLast, p.1 ≤ p.2.length) →
      ∀ cur, (tokensAux (fieldsLine fs).data cur).length < fs.length := by
  induction fs with
  | nil => intro _ h; obtain ⟨p, hp, _⟩ := h; simp at hp
  | cons p rest ih =>
    intro htok hbad cur
    have hp : isToken p.2 := htok p (List.mem_cons_self _ _)
    have hrest : ∀ q ∈ rest, isToken q.2 := fun q hq => htok q (List.mem_cons_of_mem _ hq)
    cases rest with
    | nil => obtain ⟨x, hx, _⟩ := hbad; simp at hx
    | cons q r =>
      rw [fieldsLine_cons, tokensAux_field _ _ hp]
      by_cases hpf : p.2.length < p.1
      · rw [if_pos hpf]
        have hbad2 : ∃ x ∈ (q :: r).dropLast, x.1 ≤ x.2.length := by
          obtain ⟨x, hx, hxb⟩ := hbad
          rw [List.dropLast_cons₂, List.mem_cons] at hx
          rcases hx with rfl | hx
          · omega
          · exact ⟨x, hx, hxb⟩
        have := ih hrest hbad2 []
        simp only [List.length_cons] at this ⊢
        omega
      · rw [if_neg hpf]
        have := tokensAux_length_le (q :: r) (List.cons_ne_nil q r) hrest (cur ++ p.2.data)
        simp only [List.length_cons] at this ⊢
        omega

theorem fields_tokens (self : CompClass) (hname : isToken self.name)
    (htype : isToken self.compType) (hnets : ∀ n ∈ self.nets, isToken n) :
    ∀ p ∈ self.fields, isToken p.2 := by
  intro p hp
  simp only [CompClass.fields, List.mem_cons, List.mem_map] at hp
  rcases hp with rfl | rfl | ⟨n, hn, rfl⟩
  · refine ⟨by simp, fun c hc => ?_⟩
    simp only [String.data_append, List.mem_append] at hc
    rcases hc with hc | hc
    · have : c = 'X' := by simpa using hc
      subst this
      decide
    · exact hname.2 c hc
  · exact htype
  · exact hnets n hn

/-! ## Section banner and assembly: lemmas -/

theorem makeHeader_banner (HeaderName : String) (h : HeaderName.length ≤ 72) :
    makeHeader HeaderName = some (makeHeader_spec HeaderName)
    ∧ (labelLine ((74 - HeaderName.length) / 2 - 1) HeaderName).length
        = if HeaderName.length % 2 = 0 then 76 else 75 := by
  have hmk : makeHeader HeaderName = some (makeHeader_spec HeaderName) := by
    have hle := headerBound_le _ h
    unfold makeHeader equalsLoop makeHeader_spec
    simp only [if_pos hle, Option.some_bind, appendEquals_eq]
    rw [headerBound_small _ h]
    unfold banner labelLine
    have h1 : "\n* " = "\n" ++ "* " := by decide
    rw [h1]
    simp only [String.append_assoc]
  refine ⟨hmk, ?_⟩
  simp only [labelLine, equalsRun, String.length_append, String.length_mk,
    List.length_replicate]
  have h2 : "* ".length = 2 := by decide
  have h1 : " ".length = 1 := by decide
  rw [h2, h1]
  split_ifs with hpar <;> omega

theorem headerBound_large (n : Nat) (h : 73 ≤ n) (hn : n < 2 ^ 63) :
    INT_MAX < headerBound n := by
  have hi : INT_MAX = 2147483647 := by decide
  have h63 : (2 : Nat) ^ 63 = 9223372036854775808 := by norm_num
  have h64 : (2 : Nat) ^ 64 = 18446744073709551616 := by norm_num
  rw [hi]
  unfold headerBound
  rw [h64]
  rw [h63] at hn
  omega

theorem makeHeader_none (HeaderName : String) (h : 73 ≤ HeaderName.length)
    (hn : HeaderName.length < 2 ^ 63) : makeHeader HeaderName = none := by
  have hb := headerBound_large _ h hn
  unfold makeHeader equalsLoop
  simp [Nat.not_le.2 hb]

theorem copy_byte (c : Char) (h : c.toNat < 255) :
    toChar (fgetcValue c) ≠ EOF ∧ fputcByte (toChar (fgetcValue c)) = c := by
  have hmod : c.toNat % 256 = c.toNat := Nat.mod_eq_of_lt (by omega)
  have hval : fgetcValue c = (c.toNat : Int) := by
    unfold fgetcValue
    rw [hmod]
  constructor
  · rw [hval]
    unfold toChar EOF
    omega
  · rw [hval]
    unfold fputcByte toChar
    have : (((c.toNat : Int) + 128) % 256 - 128) % 256 = (c.toNat : Int) := by omega
    rw [this, Int.toNat_ofNat, Char.ofNat_toNat]

theorem copyLoop_all (inp : List Char) (h : ∀ c ∈ inp, c.toNat < 255) :
    ∀ out, copyLoop inp out = out ++ inp := by
  induction inp with
  | nil => intro out; simp [copyLoop]
  | cons c cs ih =>
    intro out
    obtain ⟨h1, h2⟩ := copy_byte c (h c (List.mem_cons_self _ _))
    have hcs : ∀ d ∈ cs, d.toNat < 255 := fun d hd => h d (List.mem_cons_of_mem _ hd)
    rw [copyLoop]
    simp only [if_neg h1, h2]
    rw [ih hcs]
    simp

theorem copyLoop_stops (pre post : List Char) (h : ∀ c ∈ pre, c.toNat < 255) :
    ∀ out, copyLoop (pre ++ Char.ofNat 255 :: post) out = out ++ pre := by
  induction pre with
  | nil =>
    intro out
    have hff : toChar (fgetcValue (Char.ofNat 255)) = EOF := by decide
    simp [copyLoop, hff]
  | cons c cs ih =>
    intro out
    obtain ⟨h1, h2⟩ := copy_byte c (h c (List.mem_cons_self _ _))
    have hcs : ∀ d ∈ cs, d.toNat < 255 := fun d hd => h d (List.mem_cons_of_mem _ hd)
    rw [List.cons_append, copyLoop]
    simp only [if_neg h1, h2]
    rw [ih hcs]
    simp

theorem append_content_same (fs : FileSys) (path data : String) :
    (fs.append path data).content path = some ((fs.content path).getD "" ++ data) := by
  simp [FileSys.append, FileSys.write]

theorem append_content_other (fs : FileSys) (path data p : String) (h : p ≠ path) :
    (fs.append path data).content p = fs.content p := by
  simp [FileSys.append, FileSys.write, h]

theorem importAll_content (toFile : String) (imports : List String) :
    ∀ (fs : FileSys) (old : String), fs.content toFile = some old →
      fs.writable toFile = true → toFile ∉ imports →
      (∀ p ∈ imports, ∀ d, fs.content p = some d → ∀ c ∈ d.data, c.toNat < 255) →
      ∃ fs1, importAll toFile imports fs = some fs1
        ∧ fs1.content toFile = some (old ++ concatAll (imports.filterMap fs.content))
        ∧ ∀ p, p ≠ toFile → fs1.content p = fs.content p := by
  induction imports with
  | nil =>
    intro fs old hold _ _ _
    refine ⟨fs, rfl, ?_, fun _ _ => rfl⟩
    rw [hold]
    simp [concatAll]
  | cons itFn rest ih =>
    intro fs old hold hw hout hbytes
    have hne : itFn ≠ toFile := fun h => hout (h ▸ List.mem_cons_self _ _)
    have hout2 : toFile ∉ rest := fun h => hout (List.mem_cons_of_mem _ h)
    cases hc : fs.content itFn with
    | none =>
      have hbytes2 : ∀ p ∈ rest, ∀ d, fs.content p = some d → ∀ c ∈ d.data, c.toNat < 255 :=
        fun p hp => hbytes p (List.mem_cons_of_mem _ hp)
      obtain ⟨fs1, h1, h2, h3⟩ := ih fs old hold hw hout2 hbytes2
      refine ⟨fs1, ?_, ?_, h3⟩
      · simp [importAll, cpFile, hc, h1]
      · rw [h2, List.filterMap_cons, hc]
    | some d =>
      have hd : ∀ c ∈ d.data, c.toNat < 255 := hbytes itFn (List.mem_cons_self _ _) d hc
      have hcopy : String.mk (copyLoop d.data []) = d := by
        rw [copyLoop_all _ hd]
        simp
      have hstep : cpFile itFn toFile fs = some (1, fs.append toFile d) := by
        simp [cpFile, hc, hw, hcopy, hne]
      have hold2 : (fs.append toFile d).content toFile = some (old ++ d) := by
        rw [append_content_same, hold]
        rfl
      have hsame : ∀ p ∈ rest, (fs.append toFile d).content p = fs.content p := by
        intro p hp
        exact append_content_other fs toFile d p (fun h => hout2 (h ▸ hp))
      have hbytes2 : ∀ p ∈ rest, ∀ e, (fs.append toFile d).content p = some e →
          ∀ c ∈ e.data, c.toNat < 255 := by
        intro p hp e he
        rw [hsame p hp] at he
        exact hbytes p (List.mem_cons_of_mem _ hp) e he
      have hw2 : (fs.append toFile d).writable toFile = true := hw
      obtain ⟨fs1, h1, h2, h3⟩ := ih (fs.append toFile d) (old ++ d) hold2 hw2 hout2 hbytes2
      refine ⟨fs1, ?_, ?_, ?_⟩
      · simp [importAll, hstep, h1]
      · rw [h2, List.filterMap_cons, hc]
        have hfm : rest.filterMap (fs.append toFile d).content = rest.filterMap fs.content :=
          List.filterMap_congr hsame
        rw [hfm]
        simp [concatAll, String.append_assoc]
      · intro p hp
        rw [h3 p hp, append_content_other fs toFile d p hp]

/-- The output of `genCir` where neither defect of the copy loop and of the banner is met: the
subcircuit name has at most 72 characters, the output path is writable and not among the
imports, and the imports that can be opened hold no byte 0xFF. Then `genCir` returns 1,
leaves every other file as it was, and the output file is the file header, the contents of
the imports that can be opened in registration order, the banner of the subcircuit with the
port header, the banner `Components` with one line per component, the banner
`Passive Transmission Lines` with one line per line record, and the closing statement. -/
theorem genCir_output (asctime : String) (speedConstant : SpeedConstant) (self : JoSimFile)
    (fileName : String) (fs : FileSys)
    (hw : fs.writable fileName = true)
    (hname : self.subcktName.length ≤ 72)
    (hout : fileName ∉ self.fileNamesImport)
    (hbytes : ∀ p ∈ self.fileNamesImport, ∀ d, fs.content p = some d →
      ∀ c ∈ d.data, c.toNat < 255) :
    ∃ fs1, self.genCir asctime speedConstant fileName fs = some (1, fs1)
      ∧ fs1.content fileName = some (makeFileHeader asctime ""
          ++ concatAll (self.fileNamesImport.filterMap fs.content)
          ++ (makeHeader_spec self.subcktName ++ "\n" ++ (self.createSubcktHeader ++ "\n")
            ++ (makeHeader_spec "Components" ++ "\n")
            ++ renderAll CompClass.to_cir self.comps
            ++ (makeHeader_spec "Passive Transmission Lines" ++ "\n")
            ++ renderAll (PTLclass.to_cir speedConstant) self.PTLs
            ++ (".ends Created_subckt" ++ "\n")))
      ∧ ∀ p, p ≠ fileName → fs1.content p = fs.content p := by
  have hfs0 : (fs.write fileName (makeFileHeader asctime "")).content fileName
      = some (makeFileHeader asctime "") := by
    simp [FileSys.write]
  have hother : ∀ p, p ≠ fileName →
      (fs.write fileName (makeFileHeader asctime "")).content p = fs.content p := by
    intro p hp
    simp [FileSys.write, hp]
  have hsame : ∀ p ∈ self.fileNamesImport,
      (fs.write fileName (makeFileHeader asctime "")).content p = fs.content p :=
    fun p hp => hother p (fun h => hout (h ▸ hp))
  have hbytes2 : ∀ p ∈ self.fileNamesImport, ∀ d,
      (fs.write fileName (makeFileHeader asctime "")).content p = some d →
      ∀ c ∈ d.data, c.toNat < 255 := by
    intro p hp d hd
    rw [hsame p hp] at hd
    exact hbytes p hp d hd
  obtain ⟨fs1, h1, h2, h3⟩ := importAll_content fileName self.fileNamesImport
    (fs.write fileName (makeFileHeader asctime "")) _ hfs0 hw hout hbytes2
  have hm1 := (makeHeader_banner self.subcktName hname).1
  have hm2 := (makeHeader_banner "Components" (by decide)).1
  have hm3 := (makeHeader_banner "Passive Transmission Lines" (by decide)).1
  refine ⟨fs1.append fileName (makeHeader_spec self.subcktName ++ "\n"
    ++ (self.createSubcktHeader ++ "\n") ++ (makeHeader_spec "Components" ++ "\n")
    ++ renderAll CompClass.to_cir self.comps
    ++ (makeHeader_spec "Passive Transmission Lines" ++ "\n")
    ++ renderAll (PTLclass.to_cir speedConstant) self.PTLs
    ++ (".ends Created_subckt" ++ "\n")), ?_, ?_, ?_⟩
  · unfold JoSimFile.genCir
    simp only [hw, Bool.true_eq_false, if_false, h1, hm1, hm2, hm3, Option.some_bind]
  · rw [append_content_same, h2, List.filterMap_congr hsame]
    rfl
  · intro p hp
    rw [append_content_other _ _ _ _ hp, h3 p hp, hother p hp]

/-! ## Numbers: lemmas -/

theorem roundHalfEven_spec (n d : Nat) (hd : 0 < d) :
    IsNearestEven ((n : ℚ) / d) (roundHalfEven n d) := by
  have hdq : (0 : ℚ) < d := by exact_mod_cast hd
  have hn : (n : ℚ) = d * (n / d : Nat) + (n % d : Nat) := by
    exact_mod_cast (Nat.div_add_mod n d).symm
  have hr : n % d < d := Nat.mod_lt _ hd
  have hx : (n : ℚ) / d = (n / d : Nat) + ((n % d : Nat) : ℚ) / d := by
    rw [div_eq_iff hdq.ne', add_mul, div_mul_cancel₀ _ hdq.ne']
    linarith
  have ht0 : (0 : ℚ) ≤ ((n % d : Nat) : ℚ) / d := by positivity
  unfold IsNearestEven roundHalfEven
  simp only
  rw [hx]
  by_cases h1 : 2 * (n % d) < d
  · have ht : ((n % d : Nat) : ℚ) / d < 1 / 2 := by
      rw [div_lt_iff₀ hdq]
      have : (2 : ℚ) * (n % d : Nat) < d := by exact_mod_cast h1
      linarith
    rw [if_pos h1]
    have habs : |((n / d : Nat) : ℚ) + ((n % d : Nat) : ℚ) / d - (n / d : Nat)|
        = ((n % d : Nat) : ℚ) / d := by
      rw [add_sub_cancel_left, abs_of_nonneg ht0]
    rw [habs]
    exact ⟨ht.le, fun h => absurd h ht.ne⟩
  · rw [if_neg h1]
    by_cases h2 : d < 2 * (n % d)
    · have ht : (1 : ℚ) / 2 < ((n % d : Nat) : ℚ) / d := by
        rw [lt_div_iff₀ hdq]
        have : (d : ℚ) < 2 * (n % d : Nat) := by exact_mod_cast h2
        linarith
      have ht1 : ((n % d : Nat) : ℚ) / d < 1 := by
        rw [div_lt_iff₀ hdq]
        have : ((n % d : Nat) : ℚ) < d := by exact_mod_cast hr
        linarith
      rw [if_pos h2]
      have habs : |((n / d : Nat) : ℚ) + ((n % d : Nat) : ℚ) / d - ((n / d + 1 : Nat) : ℚ)|
          = 1 - ((n % d : Nat) : ℚ) / d := by
        push_cast
        rw [show ((n / d : Nat) : ℚ) + ((n % d : Nat) : ℚ) / d - (((n / d : Nat) : ℚ) + 1)
          = -(1 - ((n % d : Nat) : ℚ) / d) by ring, abs_neg, abs_of_nonneg (by linarith)]
      rw [habs]
      exact ⟨by linarith, fun h => absurd h (by linarith)⟩
    · rw [if_neg h2]
      have h3 : 2 * (n % d) = d := by omega
      have ht : ((n % d : Nat) : ℚ) / d = 1 / 2 := by
        rw [div_eq_iff hdq.ne']
        have : (2 : ℚ) * (n % d : Nat) = d := by exact_mod_cast h3
        linarith
      by_cases h4 : n / d % 2 = 0
      · rw [if_pos h4, add_sub_cancel_left, abs_of_nonneg ht0, ht]
        exact ⟨le_refl _, fun _ => h4⟩
      · rw [if_neg h4]
        have habs : |((n / d : Nat) : ℚ) + ((n % d : Nat) : ℚ) / d - ((n / d + 1 : Nat) : ℚ)|
            = 1 / 2 := by
          push_cast
          rw [ht, show ((n / d : Nat) : ℚ) + 1 / 2 - (((n / d : Nat) : ℚ) + 1) = -(1 / 2) by ring,
            abs_neg, abs_of_nonneg (by norm_num)]
        rw [habs]
        exact ⟨le_refl _, fun _ => by omega⟩


theorem floorLog_eq_log (b : Nat) (hb : 2 ≤ b) :
    ∀ fuel n, n ≤ fuel → floorLog b fuel n = Nat.log b n := by
  intro fuel
  induction fuel with
  | zero =>
    intro n hn
    have : n = 0 := by omega
    subst this
    simp [floorLog]
  | succ f ih =>
    intro n hn
    unfold floorLog
    by_cases h : n < b
    · rw [if_pos h, Nat.log_of_lt h]
    · rw [if_neg h]
      have hbn : b ≤ n := by omega
      have hlt : n / b < n := Nat.div_lt_self (by omega) (by omega)
      rw [ih (n / b) (by omega), Nat.log_of_one_lt_of_le (by omega) hbn]

theorem leadShift_spec (b num den : Nat) :
    ∀ fuel k, (∀ i, i < k → num * b ^ i < den) →
      (∃ j, k ≤ j ∧ j ≤ k + fuel ∧ den ≤ num * b ^ j) →
      den ≤ num * b ^ leadShift b fuel num den k
        ∧ ∀ i, i < leadShift b fuel num den k → num * b ^ i < den := by
  intro fuel
  induction fuel with
  | zero =>
    intro k hlow hex
    obtain ⟨j, h1, h2, h3⟩ := hex
    have : j = k := by omega
    subst this
    exact ⟨h3, hlow⟩
  | succ f ih =>
    intro k hlow hex
    unfold leadShift
    by_cases h : den ≤ num * b ^ k
    · rw [if_pos h]
      exact ⟨h, hlow⟩
    · rw [if_neg h]
      apply ih (k + 1)
      · intro i hi
        by_cases hik : i < k
        · exact hlow i hik
        · have : i = k := by omega
          subst this
          omega
      · obtain ⟨j, h1, h2, h3⟩ := hex
        have hjk : j ≠ k := by
          rintro rfl
          exact h h3
        exact ⟨j, by omega, by omega, h3⟩

theorem exponentOf_spec (b num den : Nat) (hb : 2 ≤ b) (hn : 0 < num) (hd : 0 < den) :
    (b : ℚ) ^ exponentOf b num den ≤ (num : ℚ) / den
      ∧ (num : ℚ) / den < (b : ℚ) ^ (exponentOf b num den + 1) := by
  have hdq : (0 : ℚ) < den := by exact_mod_cast hd
  have hbq : (0 : ℚ) < b := by
    have : 0 < b := by omega
    exact_mod_cast this
  unfold exponentOf
  by_cases h : den ≤ num
  · rw [if_pos h, floorLog_eq_log b hb _ _ (le_refl _)]
    have hq : num / den ≠ 0 := by
      have := Nat.div_pos h hd
      omega
    have h1 : b ^ Nat.log b (num / den) ≤ num / den := Nat.pow_log_le_self b hq
    have h2 : num / den < b ^ (Nat.log b (num / den) + 1) :=
      Nat.lt_pow_succ_log_self (by omega) _
    constructor
    · rw [zpow_natCast, le_div_iff₀ hdq]
      have : b ^ Nat.log b (num / den) * den ≤ num :=
        le_trans (Nat.mul_le_mul_right _ h1) (Nat.div_mul_le_self _ _)
      exact_mod_cast this
    · rw [show ((Nat.log b (num / den) : ℕ) : ℤ) + 1 = ((Nat.log b (num / den) + 1 : ℕ) : ℤ) by
        push_cast; ring, zpow_natCast, div_lt_iff₀ hdq]
      have : num < b ^ (Nat.log b (num / den) + 1) * den := (Nat.div_lt_iff_lt_mul hd).1 h2
      exact_mod_cast this
  · rw [if_neg h]
    have hex : ∃ j, 0 ≤ j ∧ j ≤ 0 + den ∧ den ≤ num * b ^ j := by
      refine ⟨den, by omega, by omega, ?_⟩
      have h1 : den < b ^ den := Nat.lt_pow_self (by omega) den
      calc den ≤ 1 * b ^ den := by omega
        _ ≤ num * b ^ den := Nat.mul_le_mul_right _ hn
    obtain ⟨h1, h2⟩ := leadShift_spec b num den den 0 (fun i hi => absurd hi (by omega)) hex
    have hr : leadShift b den num den 0 ≠ 0 := by
      intro h0
      rw [h0] at h1
      simp at h1
      omega
    obtain ⟨r, hr'⟩ := Nat.exists_eq_succ_of_ne_zero hr
    rw [hr'] at h1 h2 ⊢
    have h3 : num * b ^ r < den := h2 r (by omega)
    have hpr : (0 : ℚ) < (b : ℚ) ^ r := by positivity
    have hprs : (0 : ℚ) < (b : ℚ) ^ (r + 1) := by positivity
    constructor
    · rw [zpow_neg, zpow_natCast, inv_eq_one_div, div_le_div_iff₀ hprs hdq]
      have : (den : ℚ) ≤ num * b ^ (r + 1) := by exact_mod_cast h1
      simpa [Nat.succ_eq_add_one] using this
    · rw [show -((r.succ : ℕ) : ℤ) + 1 = -((r : ℕ) : ℤ) by push_cast; ring, zpow_neg,
        zpow_natCast, inv_eq_one_div, div_lt_div_iff₀ hdq hpr]
      have : (num : ℚ) * b ^ r < den := by exact_mod_cast h3
      linarith


theorem scaleRound_spec (num den : Nat) (hd : 0 < den) (e : Int) :
    IsNearestEven ((num : ℚ) / den * (10 : ℚ) ^ (1 - e)) (scaleRound 2 num den e) := by
  have hdq : (0 : ℚ) < den := by exact_mod_cast hd
  by_cases hs : (0 : ℤ) ≤ ((2 : ℕ) : ℤ) - 1 - e
  · have hk : (1 : ℤ) - e = ((((2 : ℕ) : ℤ) - 1 - e).toNat : ℤ) := by
      rw [Int.toNat_of_nonneg hs]; push_cast; ring
    have hdef : scaleRound 2 num den e
        = roundHalfEven (num * 10 ^ (((2 : ℕ) : ℤ) - 1 - e).toNat) den := by
      simp only [scaleRound, if_pos hs]
    have := roundHalfEven_spec (num * 10 ^ (((2 : ℕ) : ℤ) - 1 - e).toNat) den hd
    have heq : (num : ℚ) / den * (10 : ℚ) ^ (((2 : ℕ) : ℤ) - 1 - e).toNat
        = ((num * 10 ^ (((2 : ℕ) : ℤ) - 1 - e).toNat : ℕ) : ℚ) / den := by
      push_cast; ring
    rw [hk, zpow_natCast, hdef, heq]
    exact this
  · have hs' : (0 : ℤ) ≤ -(((2 : ℕ) : ℤ) - 1 - e) := by omega
    have hk : (1 : ℤ) - e = -((-(((2 : ℕ) : ℤ) - 1 - e)).toNat : ℤ) := by
      rw [Int.toNat_of_nonneg hs']; push_cast; ring
    have hdef : scaleRound 2 num den e
        = roundHalfEven num (den * 10 ^ (-(((2 : ℕ) : ℤ) - 1 - e)).toNat) := by
      simp only [scaleRound, if_neg hs]
    have hpos : 0 < den * 10 ^ (-(((2 : ℕ) : ℤ) - 1 - e)).toNat := by positivity
    have := roundHalfEven_spec num (den * 10 ^ (-(((2 : ℕ) : ℤ) - 1 - e)).toNat) hpos
    have heq : (num : ℚ) / den * ((10 : ℚ) ^ (-(((2 : ℕ) : ℤ) - 1 - e)).toNat)⁻¹
        = (num : ℚ) / ((den * 10 ^ (-(((2 : ℕ) : ℤ) - 1 - e)).toNat : ℕ) : ℚ) := by
      push_cast
      field_simp
    rw [hk, zpow_neg, zpow_natCast, hdef, heq]
    exact this

theorem significand_spec (num den : Nat) (hn : 0 < num) (hd : 0 < den) :
    IsTwoDigitRounding ((num : ℚ) / den) (significand 2 num den).1 (significand 2 num den).2
      ∧ 10 ≤ (significand 2 num den).1 ∧ (significand 2 num den).1 < 100 := by
  obtain ⟨h1, h2⟩ := exponentOf_spec 10 num den (by norm_num) hn hd
  have h3 := scaleRound_spec num den hd (exponentOf 10 num den)
  set e := exponentOf 10 num den with he
  set m0 := scaleRound 2 num den e with hm0
  set v : ℚ := (num : ℚ) / den with hv
  have h10 : ((10 : ℕ) : ℚ) = 10 := by norm_num
  rw [h10] at h1 h2
  have hp : (0 : ℚ) < (10 : ℚ) ^ (1 - e) := by positivity
  have hx1 : (10 : ℚ) ≤ v * (10 : ℚ) ^ (1 - e) := by
    have : (10 : ℚ) ^ e * (10 : ℚ) ^ (1 - e) = 10 := by
      rw [← zpow_add₀ (by norm_num : (10 : ℚ) ≠ 0), show e + (1 - e) = 1 by ring]
      norm_num
    calc (10 : ℚ) = (10 : ℚ) ^ e * (10 : ℚ) ^ (1 - e) := this.symm
      _ ≤ v * (10 : ℚ) ^ (1 - e) := mul_le_mul_of_nonneg_right h1 hp.le
  have hx2 : v * (10 : ℚ) ^ (1 - e) < 100 := by
    have : (10 : ℚ) ^ (e + 1) * (10 : ℚ) ^ (1 - e) = 100 := by
      rw [← zpow_add₀ (by norm_num : (10 : ℚ) ≠ 0), show e + 1 + (1 - e) = 2 by ring]
      norm_num
    calc v * (10 : ℚ) ^ (1 - e) < (10 : ℚ) ^ (e + 1) * (10 : ℚ) ^ (1 - e) :=
          mul_lt_mul_of_pos_right h2 hp
      _ = 100 := this
  have habs := h3.1
  rw [abs_le] at habs
  have hlo : 10 ≤ m0 := by
    have : (9 : ℚ) < (m0 : ℚ) := by linarith [habs.2]
    have : 9 < m0 := by exact_mod_cast this
    omega
  have hhi : m0 ≤ 100 := by
    have : (m0 : ℚ) < 101 := by linarith [habs.1]
    have : m0 < 101 := by exact_mod_cast this
    omega
  have hsig : significand 2 num den = if 100 ≤ m0 then (m0 / 10, e + 1) else (m0, e) := by
    unfold significand
    simp only [← he, ← hm0]
    norm_num
  by_cases h100 : m0 = 100
  · have hge : 100 ≤ m0 := by omega
    rw [hsig, if_pos hge]
    refine ⟨⟨e, m0, h1, h2, h3, ?_, ?_⟩, ?_, ?_⟩
    · simp [h100]
    · simp [h100]
    · simp [h100]
    · simp [h100]
  · have hlt : ¬ 100 ≤ m0 := by omega
    rw [hsig, if_neg hlt]
    refine ⟨⟨e, m0, h1, h2, h3, ?_, ?_⟩, hlo, by omega⟩
    · simp [h100]
    · simp [h100]


theorem roundAt_spec (num den : Nat) (hd : 0 < den) (e : Int) :
    IsNearestEven ((num : ℚ) / den / (2 : ℚ) ^ e)
      (if 0 ≤ e then roundHalfEven num (den * 2 ^ e.toNat)
        else roundHalfEven (num * 2 ^ (-e).toNat) den) := by
  by_cases he : 0 ≤ e
  · rw [if_pos he]
    have hpos : 0 < den * 2 ^ e.toNat := by positivity
    have := roundHalfEven_spec num (den * 2 ^ e.toNat) hpos
    have hk : e = (e.toNat : ℤ) := (Int.toNat_of_nonneg he).symm
    have heq : (num : ℚ) / den / (2 : ℚ) ^ e.toNat
        = (num : ℚ) / ((den * 2 ^ e.toNat : ℕ) : ℚ) := by
      push_cast
      rw [div_div]
    rw [hk, zpow_natCast, Int.toNat_natCast, heq]
    exact this
  · rw [if_neg he]
    have he' : (0 : ℤ) ≤ -e := by omega
    have := roundHalfEven_spec (num * 2 ^ (-e).toNat) den hd
    have hk : e = -((-e).toNat : ℤ) := by rw [Int.toNat_of_nonneg he']; ring
    have heq : (num : ℚ) / den / ((2 : ℚ) ^ (-e).toNat)⁻¹
        = ((num * 2 ^ (-e).toNat : ℕ) : ℚ) / den := by
      push_cast
      field_simp
    have hgoal : (num : ℚ) / den / (2 : ℚ) ^ e
        = ((num * 2 ^ (-e).toNat : ℕ) : ℚ) / den := by
      rw [← heq]
      congr 1
      conv_lhs => rw [hk]
      rw [zpow_neg, zpow_natCast]
    rw [hgoal]
    exact this

theorem roundDouble_spec (neg : Bool) (num den : Nat) (hd : 0 < den) :
    IsNearestDouble neg ((num : ℚ) / den) (roundDouble neg num den) := by
  have hdq : (0 : ℚ) < den := by exact_mod_cast hd
  by_cases hn : num = 0
  · subst hn
    refine ⟨?_, ?_, Or.inl ⟨by simp, ?_, ?_⟩⟩ <;> simp [roundDouble]
  · have hnpos : 0 < num := Nat.pos_of_ne_zero hn
    obtain ⟨h1, h2⟩ := exponentOf_spec 2 num den (le_refl _) hnpos hd
    have h2q : ((2 : ℕ) : ℚ) = 2 := by norm_num
    rw [h2q] at h1 h2
    have hv : (0 : ℚ) < (num : ℚ) / den := by positivity
    have hr := roundAt_spec num den hd (max (exponentOf 2 num den - 52) (-1074))
    set e : ℤ := max (exponentOf 2 num den - 52) (-1074) with he
    have hdef : roundDouble neg num den
        = ⟨neg, decide (overflowBound * (if 0 ≤ e then 1 else 2 ^ (-e).toNat)
              ≤ (if 0 ≤ e then (if 0 ≤ e then roundHalfEven num (den * 2 ^ e.toNat)
                    else roundHalfEven (num * 2 ^ (-e).toNat) den) * 2 ^ e.toNat
                  else (if 0 ≤ e then roundHalfEven num (den * 2 ^ e.toNat)
                    else roundHalfEven (num * 2 ^ (-e).toNat) den))),
            (if 0 ≤ e then (if 0 ≤ e then roundHalfEven num (den * 2 ^ e.toNat)
                    else roundHalfEven (num * 2 ^ (-e).toNat) den) * 2 ^ e.toNat
                  else (if 0 ≤ e then roundHalfEven num (den * 2 ^ e.toNat)
                    else roundHalfEven (num * 2 ^ (-e).toNat) den)),
            (if 0 ≤ e then 1 else 2 ^ (-e).toNat)⟩ := by
      simp only [roundDouble, if_neg hn, ← he]
    rw [hdef]
    set m := (if 0 ≤ e then roundHalfEven num (den * 2 ^ e.toNat)
      else roundHalfEven (num * 2 ^ (-e).toNat) den) with hm
    by_cases hpos : 0 ≤ e
    · simp only [if_pos hpos]
      have hk : e = (e.toNat : ℤ) := (Int.toNat_of_nonneg hpos).symm
      have hpow : (2 : ℚ) ^ e = ((2 ^ e.toNat : ℕ) : ℚ) := by
        conv_lhs => rw [hk]
        rw [zpow_natCast]
        push_cast
        rfl
      refine ⟨rfl, by norm_num, Or.inr ⟨hv, exponentOf 2 num den, m, h1, h2, hr, ?_, ?_⟩⟩
      · rw [hpow]
        push_cast
        ring
      · rw [hpow, decide_eq_true_iff]
        constructor
        · intro h
          have : ((overflowBound * 1 : ℕ) : ℚ) ≤ ((m * 2 ^ e.toNat : ℕ) : ℚ) := by exact_mod_cast h
          push_cast at this
          simpa using this
        · intro h
          have : ((overflowBound * 1 : ℕ) : ℚ) ≤ ((m * 2 ^ e.toNat : ℕ) : ℚ) := by
            push_cast
            simpa using h
          exact_mod_cast this
    · simp only [if_neg hpos]
      have hneg : (0 : ℤ) ≤ -e := by omega
      have hk : e = -((-e).toNat : ℤ) := by rw [Int.toNat_of_nonneg hneg]; ring
      have hpp : (0 : ℚ) < ((2 ^ (-e).toNat : ℕ) : ℚ) := by positivity
      have hpow : (2 : ℚ) ^ e = (((2 ^ (-e).toNat : ℕ) : ℚ))⁻¹ := by
        conv_lhs => rw [hk]
        rw [zpow_neg, zpow_natCast]
        push_cast
        rfl
      refine ⟨rfl, by positivity, Or.inr ⟨hv, exponentOf 2 num den, m, h1, h2, hr, ?_, ?_⟩⟩
      · rw [hpow]
        ring
      · rw [hpow, decide_eq_true_iff, ← div_eq_mul_inv, le_div_iff₀ hpp]
        constructor
        · intro h
          have : ((overflowBound * 2 ^ (-e).toNat : ℕ) : ℚ) ≤ (m : ℚ) := by exact_mod_cast h
          push_cast at this
          simpa using this
        · intro h
          have : ((overflowBound * 2 ^ (-e).toNat : ℕ) : ℚ) ≤ (m : ℚ) := by
            push_cast
            simpa using h
          exact_mod_cast this


theorem value_finite (speedConstant : SpeedConstant) : speedConstant.value.inf = false := by
  have hpos : 0 < 10 ^ speedConstant.scale := by positivity
  have hspec := roundDouble_spec false speedConstant.digits (10 ^ speedConstant.scale) hpos
  obtain ⟨_, _, h | h⟩ := hspec
  · exact h.2.1
  · obtain ⟨hv, E, m, h1, h2, hr, _, hinf⟩ := h
    have hlt : ((speedConstant.digits : ℚ)) / ((10 ^ speedConstant.scale : ℕ) : ℚ)
        < (10 : ℚ) ^ 308 := by
      have hp : (0 : ℚ) < ((10 ^ speedConstant.scale : ℕ) : ℚ) := by positivity
      rw [div_lt_iff₀ hp]
      have := speedConstant.inRange
      have h' : (speedConstant.digits : ℚ) < ((10 ^ (speedConstant.scale + 308) : ℕ) : ℚ) := by
        exact_mod_cast this
      push_cast at h' ⊢
      rw [pow_add] at h'
      linarith
    set v : ℚ := (speedConstant.digits : ℚ) / ((10 ^ speedConstant.scale : ℕ) : ℚ) with hvdef
    have hbig : (10 : ℚ) ^ 308 < (2 : ℚ) ^ (1024 : ℤ) := by norm_num
    have hE : E < 1024 := by
      have : (2 : ℚ) ^ E < (2 : ℚ) ^ (1024 : ℤ) := lt_of_le_of_lt h1 (lt_trans hlt hbig)
      exact (zpow_lt_zpow_iff_right₀ (by norm_num : (1 : ℚ) < 2)).1 this
    have he : max (E - 52) (-1074) ≤ 971 := by omega
    have hpe : (0 : ℚ) < (2 : ℚ) ^ max (E - 52) (-1074) := by positivity
    have hpe2 : (2 : ℚ) ^ max (E - 52) (-1074) ≤ (2 : ℚ) ^ (971 : ℤ) :=
      zpow_le_zpow_right₀ (by norm_num) he
    have habs := hr.1
    rw [abs_le] at habs
    have hm : (m : ℚ) ≤ v / (2 : ℚ) ^ max (E - 52) (-1074) + 1 / 2 := by linarith [habs.1]
    have hm2 : (m : ℚ) * (2 : ℚ) ^ max (E - 52) (-1074)
        ≤ v + (2 : ℚ) ^ max (E - 52) (-1074) / 2 := by
      calc (m : ℚ) * (2 : ℚ) ^ max (E - 52) (-1074)
          ≤ (v / (2 : ℚ) ^ max (E - 52) (-1074) + 1 / 2) * (2 : ℚ) ^ max (E - 52) (-1074) :=
            mul_le_mul_of_nonneg_right hm hpe.le
        _ = v + (2 : ℚ) ^ max (E - 52) (-1074) / 2 := by
            field_simp
            ring
    have hnum : (10 : ℚ) ^ 308 + (2 : ℚ) ^ (971 : ℤ) / 2 < (overflowBound : ℚ) := by
      unfold overflowBound
      norm_num
    have hfin : ¬ (overflowBound : ℚ) ≤ (m : ℚ) * (2 : ℚ) ^ max (E - 52) (-1074) := by
      intro hcon
      linarith
    cases hc : speedConstant.value.inf with
    | false => rfl
    | true =>
      have := hinf.1 hc
      exact absurd this hfin

theorem delay_spec (speedConstant : SpeedConstant) (length : Int) :
    IsDelay speedConstant length (delay speedConstant length) := by
  have hpos : 0 < 10 ^ speedConstant.scale := by positivity
  have hc := roundDouble_spec false speedConstant.digits (10 ^ speedConstant.scale) hpos
  have hden : 0 < speedConstant.value.den := hc.2.1
  have hd := roundDouble_spec (decide (length < 0)) (length.natAbs * speedConstant.value.num)
    speedConstant.value.den hden
  refine ⟨speedConstant.value, ?_, value_finite speedConstant, ?_⟩
  · have : ((10 ^ speedConstant.scale : ℕ) : ℚ) = (10 : ℚ) ^ speedConstant.scale := by
      push_cast; rfl
    rw [← this]
    exact hc
  · have : (length.natAbs : ℚ) * ((speedConstant.value.num : ℚ) / speedConstant.value.den)
        = ((length.natAbs * speedConstant.value.num : ℕ) : ℚ) / speedConstant.value.den := by
      push_cast; ring
    rw [this]
    exact hd


theorem fixedDigits_spec (m : Nat) (h1 : 10 ≤ m) (h2 : m < 100) (X : Int) (hX1 : -4 ≤ X)
    (hX2 : X < 2) : String.mk (fixedDigits 2 m X) = generalText_spec m X := by
  have hX : X = -4 ∨ X = -3 ∨ X = -2 ∨ X = -1 ∨ X = 0 ∨ X = 1 := by omega
  rcases hX with rfl | rfl | rfl | rfl | rfl | rfl <;> interval_cases m <;> rfl

theorem mantissaDigits_spec (m : Nat) (h1 : 10 ≤ m) (h2 : m < 100) :
    String.mk (mantissaDigits m) = digitsPointed m := by
  interval_cases m <;> rfl

theorem toDigitsCore_length_pos (b : Nat) :
    ∀ fuel n ds, 0 < fuel → 0 < (Nat.toDigitsCore b fuel n ds).length := by
  intro fuel n ds hf
  cases fuel with
  | zero => omega
  | succ f =>
    unfold Nat.toDigitsCore
    by_cases h : n / b = 0
    · simp [h]
    · simp only [h, if_false]
      rw [Nat.toDigitsCore_lens_eq]
      omega

theorem repr_length_two (n : Nat) (h : 10 ≤ n) : 2 ≤ (Nat.repr n).length := by
  have hdiv : n / 10 ≠ 0 := by omega
  have : (Nat.repr n).length = (Nat.toDigitsCore 10 (n + 1) n []).length := rfl
  rw [this]
  unfold Nat.toDigitsCore
  simp only [hdiv, if_false]
  rw [Nat.toDigitsCore_lens_eq]
  have := toDigitsCore_length_pos 10 n (n / 10) [] (by omega)
  omega

theorem exponentDigits_spec (X : Int) :
    String.mk (exponentDigits X)
      = "e" ++ (if X < 0 then "-" else "+") ++ (if X.natAbs < 10 then "0" else "")
        ++ Nat.repr X.natAbs := by
  have hpad : List.replicate (2 - (Nat.repr X.natAbs).length) '0'
      = (if X.natAbs < 10 then "0" else "").data := by
    by_cases h : X.natAbs < 10
    · rw [if_pos h]
      generalize X.natAbs = n at h
      interval_cases n <;> rfl
    · rw [if_neg h]
      have := repr_length_two X.natAbs (by omega)
      have h0 : 2 - (Nat.repr X.natAbs).length = 0 := by omega
      rw [h0]
      rfl
  apply String.ext
  unfold exponentDigits
  simp only [String.data_append, String.length] at hpad ⊢
  rw [hpad]
  by_cases hneg : X < 0 <;> simp [hneg]

theorem fmtGeneral_spec (neg : Bool) (num den : Nat) (hn : 0 < num) (hd : 0 < den) :
    ∃ (m : Nat) (X : Int), IsTwoDigitRounding ((num : ℚ) / den) m X
      ∧ fmtGeneral 2 neg num den = (if neg then "-" else "") ++ generalText_spec m X := by
  obtain ⟨hround, hlo, hhi⟩ := significand_spec num den hn hd
  refine ⟨(significand 2 num den).1, (significand 2 num den).2, hround, ?_⟩
  have hne : num ≠ 0 := by omega
  have hdef : fmtGeneral 2 neg num den
      = if -4 ≤ (significand 2 num den).2 ∧ (significand 2 num den).2 < ((2 : ℕ) : ℤ) then
          (if neg then "-" else "")
            ++ String.mk (fixedDigits 2 (significand 2 num den).1 (significand 2 num den).2)
        else (if neg then "-" else "")
            ++ String.mk (mantissaDigits (significand 2 num den).1
              ++ exponentDigits (significand 2 num den).2) := by
    simp only [fmtGeneral, if_neg hne]
    rfl
  rw [hdef]
  by_cases hX : -4 ≤ (significand 2 num den).2 ∧ (significand 2 num den).2 < ((2 : ℕ) : ℤ)
  · rw [if_pos hX, fixedDigits_spec _ hlo hhi _ hX.1 (by exact_mod_cast hX.2)]
  · rw [if_neg hX]
    have hmk : String.mk (mantissaDigits (significand 2 num den).1
          ++ exponentDigits (significand 2 num den).2)
        = String.mk (mantissaDigits (significand 2 num den).1)
          ++ String.mk (exponentDigits (significand 2 num den).2) := by
      apply String.ext
      simp
    rw [hmk, mantissaDigits_spec _ hlo hhi, exponentDigits_spec]
    have h1 : (significand 2 num den).2 ≠ 1 := by intro h; rw [h] at hX; omega
    have h2 : (significand 2 num den).2 ≠ 0 := by intro h; rw [h] at hX; omega
    have h3 : (significand 2 num den).2 ≠ -1 := by intro h; rw [h] at hX; omega
    have h4 : (significand 2 num den).2 ≠ -2 := by intro h; rw [h] at hX; omega
    have h5 : (significand 2 num den).2 ≠ -3 := by intro h; rw [h] at hX; omega
    have h6 : (significand 2 num den).2 ≠ -4 := by intro h; rw [h] at hX; omega
    unfold generalText_spec
    rw [if_neg h1, if_neg h2, if_neg h3, if_neg h4, if_neg h5, if_neg h6]
    simp only [String.append_assoc]

theorem fmtDouble_spec (d : Double) (hd : 0 < d.den) : IsGeneralText d (fmtDouble 2 d) := by
  unfold IsGeneralText fmtDouble
  cases hinf : d.inf with
  | true =>
    left
    refine ⟨rfl, ?_⟩
    cases d.neg <;> rfl
  | false =>
    right
    by_cases hnum : d.num = 0
    · left
      refine ⟨rfl, hnum, ?_⟩
      simp [fmtGeneral, hnum]
    · right
      have hpos : 0 < d.num := Nat.pos_of_ne_zero hnum
      obtain ⟨m, X, h1, h2⟩ := fmtGeneral_spec d.neg d.num d.den hpos hd
      exact ⟨rfl, hpos, m, X, h1, by simpa using h2⟩

theorem delay_den_pos (speedConstant : SpeedConstant) (length : Int) :
    0 < (delay speedConstant length).den := by
  have hpos : 0 < 10 ^ speedConstant.scale := by positivity
  have hc := roundDouble_spec false speedConstant.digits (10 ^ speedConstant.scale) hpos
  exact (roundDouble_spec (decide (length < 0)) (length.natAbs * speedConstant.value.num)
    speedConstant.value.den hc.2.1).2.1

/-! ## The number formats determine their result: lemmas -/

theorem IsNearestEven_unique (x : ℚ) (m m' : Nat) (h : IsNearestEven x m)
    (h' : IsNearestEven x m') : m = m' := by
  obtain ⟨h1, h2⟩ := h
  obtain ⟨h1', h2'⟩ := h'
  have a1 := abs_le.1 h1
  have a1' := abs_le.1 h1'
  have hle : m ≤ m' + 1 := by
    have : (m : ℚ) ≤ m' + 1 := by linarith [a1.2, a1'.1]
    exact_mod_cast this
  have hle' : m' ≤ m + 1 := by
    have : (m' : ℚ) ≤ m + 1 := by linarith [a1.1, a1'.2]
    exact_mod_cast this
  by_contra hne
  rcases Nat.lt_or_gt_of_ne hne with hlt | hgt
  · have hm : m' = m + 1 := by omega
    have hmq : (m' : ℚ) = m + 1 := by exact_mod_cast hm
    have hx : x = m + 1 / 2 := by linarith [a1.2, a1'.1]
    have e1 : |x - m| = 1 / 2 := by
      rw [hx, add_sub_cancel_left, abs_of_nonneg (by norm_num)]
    have e2 : |x - m'| = 1 / 2 := by
      rw [hx, hmq, show (m : ℚ) + 1 / 2 - (m + 1) = -(1 / 2) by ring, abs_neg,
        abs_of_nonneg (by norm_num)]
    have := h2 e1
    have := h2' e2
    omega
  · have hm : m = m' + 1 := by omega
    have hmq : (m : ℚ) = m' + 1 := by exact_mod_cast hm
    have hx : x = m' + 1 / 2 := by linarith [a1.1, a1'.2]
    have e1 : |x - m'| = 1 / 2 := by
      rw [hx, add_sub_cancel_left, abs_of_nonneg (by norm_num)]
    have e2 : |x - m| = 1 / 2 := by
      rw [hx, hmq, show (m' : ℚ) + 1 / 2 - (m' + 1) = -(1 / 2) by ring, abs_neg,
        abs_of_nonneg (by norm_num)]
    have := h2 e2
    have := h2' e1
    omega

theorem exponent_unique (b v : ℚ) (hb : 1 < b) (e e' : Int) (h1 : b ^ e ≤ v)
    (h2 : v < b ^ (e + 1)) (h1' : b ^ e' ≤ v) (h2' : v < b ^ (e' + 1)) : e = e' := by
  have ha : e < e' + 1 := (zpow_lt_zpow_iff_right₀ hb).1 (lt_of_le_of_lt h1 h2')
  have hb' : e' < e + 1 := (zpow_lt_zpow_iff_right₀ hb).1 (lt_of_le_of_lt h1' h2)
  omega

theorem IsTwoDigitRounding_unique (v : ℚ) (m m' : Nat) (X X' : Int)
    (h : IsTwoDigitRounding v m X) (h' : IsTwoDigitRounding v m' X') : m = m' ∧ X = X' := by
  obtain ⟨e, m0, h1, h2, h3, rfl, rfl⟩ := h
  obtain ⟨e', m0', h1', h2', h3', rfl, rfl⟩ := h'
  have he : e = e' := exponent_unique 10 v (by norm_num) e e' h1 h2 h1' h2'
  subst he
  have hm : m0 = m0' := IsNearestEven_unique _ _ _ h3 h3'
  subst hm
  exact ⟨rfl, rfl⟩

theorem IsGeneralText_unique (d : Double) (t t' : String) (h : IsGeneralText d t)
    (h' : IsGeneralText d t') : t = t' := by
  rcases h with ⟨hi, rfl⟩ | ⟨hi, hz, rfl⟩ | ⟨hi, hp, m, X, hr, rfl⟩ <;>
    rcases h' with ⟨hi', rfl⟩ | ⟨hi', hz', rfl⟩ | ⟨hi', hp', m', X', hr', rfl⟩
  · rfl
  · rw [hi] at hi'; exact absurd hi' (by decide)
  · rw [hi] at hi'; exact absurd hi' (by decide)
  · rw [hi] at hi'; exact absurd hi' (by decide)
  · rfl
  · omega
  · rw [hi] at hi'; exact absurd hi' (by decide)
  · omega
  · obtain ⟨rfl, rfl⟩ := IsTwoDigitRounding_unique _ _ _ _ _ hr hr'
    rfl

theorem IsNearestDouble_unique (neg : Bool) (v : ℚ) (d d' : Double)
    (h : IsNearestDouble neg v d) (h' : IsNearestDouble neg v d') :
    d.neg = d'.neg ∧ d.inf = d'.inf ∧ (d.num : ℚ) / d.den = (d'.num : ℚ) / d'.den := by
  obtain ⟨hn, hden, hc⟩ := h
  obtain ⟨hn', hden', hc'⟩ := h'
  refine ⟨hn.trans hn'.symm, ?_⟩
  rcases hc with ⟨hv, hi, hz⟩ | ⟨hv, E, m, h1, h2, h3, h4, h5⟩ <;>
    rcases hc' with ⟨hv', hi', hz'⟩ | ⟨hv', E', m', h1', h2', h3', h4', h5'⟩
  · exact ⟨hi.trans hi'.symm, by simp [hz, hz']⟩
  · rw [hv] at hv'; exact absurd hv' (lt_irrefl _)
  · rw [hv'] at hv; exact absurd hv (lt_irrefl _)
  · have hE : E = E' := exponent_unique 2 v (by norm_num) E E' h1 h2 h1' h2'
    subst hE
    have hm : m = m' := IsNearestEven_unique _ _ _ h3 h3'
    subst hm
    refine ⟨?_, h4.trans h4'.symm⟩
    cases hdi : d.inf <;> cases hdi' : d'.inf
    · rfl
    · exact absurd (h5.2 (h5'.1 hdi')) (by rw [hdi]; decide)
    · exact absurd (h5'.2 (h5.1 hdi)) (by rw [hdi']; decide)
    · rfl

/-! ## Transmission-line tokens: lemmas -/

theorem noSpace_append (a b : String) (ha : noSpace a) (hb : noSpace b) : noSpace (a ++ b) := by
  intro c hc
  rw [String.data_append, List.mem_append] at hc
  rcases hc with h | h
  · exact ha c h
  · exact hb c h

theorem digitChar_noSpace (k : Nat) : isspace (Nat.digitChar k) = false := by
  by_cases hk : k < 16
  · interval_cases k <;> rfl
  · have hstar : Nat.digitChar k = '*' := by
      unfold Nat.digitChar
      simp only [show k ≠ 0 by omega, show k ≠ 1 by omega, show k ≠ 2 by omega,
        show k ≠ 3 by omega, show k ≠ 4 by omega, show k ≠ 5 by omega, show k ≠ 6 by omega,
        show k ≠ 7 by omega, show k ≠ 8 by omega, show k ≠ 9 by omega, show k ≠ 10 by omega,
        show k ≠ 11 by omega, show k ≠ 12 by omega, show k ≠ 13 by omega,
        show k ≠ 14 by omega, show k ≠ 15 by omega, if_false]
    rw [hstar]
    rfl

theorem toDigitsCore_noSpace :
    ∀ (fuel n : Nat) (ds : List Char), (∀ c ∈ ds, isspace c = false) →
      ∀ c ∈ Nat.toDigitsCore 10 fuel n ds, isspace c = false := by
  intro fuel
  induction fuel with
  | zero => intro n ds h c hc; exact h c hc
  | succ f ih =>
    intro n ds h c hc
    unfold Nat.toDigitsCore at hc
    have hds : ∀ x ∈ Nat.digitChar (n % 10) :: ds, isspace x = false := by
      intro x hx
      rcases List.mem_cons.1 hx with rfl | hx
      · exact digitChar_noSpace _
      · exact h x hx
    by_cases hz : n / 10 = 0
    · simp only [hz, if_true] at hc
      exact hds c hc
    · simp only [hz, if_false] at hc
      exact ih _ _ hds c hc

theorem repr_noSpace (n : Nat) : noSpace (Nat.repr n) := by
  intro c hc
  exact toDigitsCore_noSpace (n + 1) n [] (fun x hx => absurd hx (List.not_mem_nil x)) c hc

theorem digitPair_noSpace (m : Nat) : noSpace (digitPair m) := by
  intro c hc
  simp only [digitPair, List.mem_cons, List.mem_singleton, List.not_mem_nil, or_false] at hc
  rcases hc with rfl | rfl <;> exact digitChar_noSpace _

theorem digitsTrimmed_noSpace (m : Nat) : noSpace (digitsTrimmed m) := by
  unfold digitsTrimmed
  split_ifs
  · intro c hc
    simp only [List.mem_singleton] at hc
    subst hc
    exact digitChar_noSpace _
  · exact digitPair_noSpace m

theorem digitsPointed_noSpace (m : Nat) : noSpace (digitsPointed m) := by
  unfold digitsPointed
  split_ifs
  · intro c hc
    simp only [List.mem_singleton] at hc
    subst hc
    exact digitChar_noSpace _
  · intro c hc
    simp only [List.mem_cons, List.mem_singleton, List.not_mem_nil, or_false] at hc
    rcases hc with rfl | rfl | rfl
    · exact digitChar_noSpace _
    · rfl
    · exact digitChar_noSpace _

theorem generalText_noSpace (m : Nat) (X : Int) : noSpace (generalText_spec m X) := by
  unfold generalText_spec
  split_ifs
  · exact digitPair_noSpace m
  · exact digitsPointed_noSpace m
  · exact noSpace_append _ _ (by decide) (digitsTrimmed_noSpace m)
  · exact noSpace_append _ _ (by decide) (digitsTrimmed_noSpace m)
  · exact noSpace_append _ _ (by decide) (digitsTrimmed_noSpace m)
  · exact noSpace_append _ _ (by decide) (digitsTrimmed_noSpace m)
  · exact noSpace_append _ _ (noSpace_append _ _ (noSpace_append _ _ (noSpace_append _ _
      (digitsPointed_noSpace m) (by decide)) (by decide)) (by decide)) (repr_noSpace _)
  · exact noSpace_append _ _ (noSpace_append _ _ (noSpace_append _ _ (noSpace_append _ _
      (digitsPointed_noSpace m) (by decide)) (by decide)) (by decide)) (repr_noSpace _)
  · exact noSpace_append _ _ (noSpace_append _ _ (noSpace_append _ _ (noSpace_append _ _
      (digitsPointed_noSpace m) (by decide)) (by decide)) (by decide)) (repr_noSpace _)
  · exact noSpace_append _ _ (noSpace_append _ _ (noSpace_append _ _ (noSpace_append _ _
      (digitsPointed_noSpace m) (by decide)) (by decide)) (by decide)) (repr_noSpace _)

theorem generalText_noSpace_of (d : Double) (text : String) (h : IsGeneralText d text) :
    noSpace text := by
  have hsign : noSpace (if d.neg then "-" else "") := by
    cases d.neg <;> decide
  rcases h with ⟨_, rfl⟩ | ⟨_, _, rfl⟩ | ⟨_, _, m, X, _, rfl⟩
  · exact noSpace_append _ _ hsign (by decide)
  · exact noSpace_append _ _ hsign (by decide)
  · exact noSpace_append _ _ hsign (generalText_noSpace m X)

theorem tokensAux_step (t rest : List Char) (k : Nat) (ht : ∀ c ∈ t, isspace c = false)
    (hne : t ≠ []) :
    tokensAux (t ++ (List.replicate (k + 1) ' ' ++ rest)) [] = t :: tokensAux rest [] := by
  rw [tokensAux_token _ _ ht, List.nil_append, tokensAux_spaces_cons _ _ _ hne]

theorem tokensAux_last (t : List Char) (ht : ∀ c ∈ t, isspace c = false) (hne : t ≠ []) :
    tokensAux t [] = [t] := by
  have := tokensAux_token t [] ht []
  rw [List.append_nil, List.nil_append] at this
  rw [this]
  simp [tokensAux, hne]

theorem append_data_ne_nil_left (a b : String) (h : a.data ≠ []) : (a ++ b).data ≠ [] := by
  rw [String.data_append]
  intro hnil
  exact h (List.append_eq_nil.1 hnil).1

theorem append_data_ne_nil_right (a b : String) (h : b.data ≠ []) : (a ++ b).data ≠ [] := by
  rw [String.data_append]
  intro hnil
  exact h (List.append_eq_nil.1 hnil).2

theorem PTL_line_tokens (name nameNet text : String) (hname : noSpace name)
    (hnet : noSpace nameNet) (hlen : nameNet.length < 5) (htext : noSpace text) :
    tokens (rjust 7 ("T" ++ name) ++ rjust 6 (nameNet ++ "A") ++ "   0"
        ++ rjust 6 (nameNet ++ "B") ++ "   0" ++ "  LOSSLESS Z0=5.00  TD=" ++ text ++ "p")
      = ["T" ++ name, nameNet ++ "A", "0", nameNet ++ "B", "0", "LOSSLESS", "Z0=5.00",
          "TD=" ++ text ++ "p"] := by
  have hT : noSpace ("T" ++ name) := noSpace_append _ _ (by decide) hname
  have hA : noSpace (nameNet ++ "A") := noSpace_append _ _ hnet (by decide)
  have hB : noSpace (nameNet ++ "B") := noSpace_append _ _ hnet (by decide)
  have hlast : noSpace ("TD=" ++ text ++ "p") :=
    noSpace_append _ _ (noSpace_append _ _ (by decide) htext) (by decide)
  have hTne : ("T" ++ name).data ≠ [] := append_data_ne_nil_left _ _ (by decide)
  have hAne : (nameNet ++ "A").data ≠ [] := append_data_ne_nil_right _ _ (by decide)
  have hBne : (nameNet ++ "B").data ≠ [] := append_data_ne_nil_right _ _ (by decide)
  have hlastne : ("TD=" ++ text ++ "p").data ≠ [] := append_data_ne_nil_right _ _ (by decide)
  have hAlen : (nameNet ++ "A").length = nameNet.length + 1 := by
    rw [String.length_append]; rfl
  have hBlen : (nameNet ++ "B").length = nameNet.length + 1 := by
    rw [String.length_append]; rfl
  obtain ⟨k, hk⟩ : ∃ k, 6 - (nameNet.length + 1) = k + 1 :=
    ⟨6 - (nameNet.length + 1) - 1, by omega⟩
  have hdata : (rjust 7 ("T" ++ name) ++ rjust 6 (nameNet ++ "A") ++ "   0"
        ++ rjust 6 (nameNet ++ "B") ++ "   0" ++ "  LOSSLESS Z0=5.00  TD=" ++ text ++ "p").data
      = List.replicate (7 - ("T" ++ name).length) ' ' ++ (("T" ++ name).data
        ++ (List.replicate (k + 1) ' ' ++ ((nameNet ++ "A").data
        ++ (List.replicate (2 + 1) ' ' ++ ("0".data
        ++ (List.replicate (k + 1) ' ' ++ ((nameNet ++ "B").data
        ++ (List.replicate (2 + 1) ' ' ++ ("0".data
        ++ (List.replicate (1 + 1) ' ' ++ ("LOSSLESS".data
        ++ (List.replicate (0 + 1) ' ' ++ ("Z0=5.00".data
        ++ (List.replicate (1 + 1) ' ' ++ ("TD=" ++ text ++ "p").data)))))))))))))) := by
    simp only [rjust, String.data_append, hAlen, hBlen, hk, List.append_assoc]
    simp [List.replicate_succ]
  unfold tokens
  rw [hdata, tokensAux_spaces_nil, tokensAux_step _ _ _ hT hTne, tokensAux_step _ _ _ hA hAne,
    tokensAux_step _ _ _ (by decide) (by decide), tokensAux_step _ _ _ hB hBne,
    tokensAux_step _ _ _ (by decide) (by decide), tokensAux_step _ _ _ (by decide) (by decide),
    tokensAux_step _ _ _ (by decide) (by decide), tokensAux_last _ hlast hlastne]
  rfl

/-- For a component record whose name, type and nets are non-empty strings without
whitespace, splitting the line of `to_cir` on whitespace yields the tokens `"X"` joined to
the name, the type and the nets in order if and only if every field but the last on the
line is shorter than its width (20 for `"X"` joined to the name, 20 for the type, 7 for a
net). -/
theorem tokens_to_cir (self : CompClass) (hname : isToken self.name)
    (htype : isToken self.compType) (hnets : ∀ n ∈ self.nets, isToken n) :
    tokens self.to_cir = ("X" ++ self.name) :: self.compType :: self.nets ↔ self.fits := by
  have htok := fields_tokens self hname htype hnets
  have hexp : (self.fields.map fun p => p.2)
      = ("X" ++ self.name) :: self.compType :: self.nets := by
    simp [CompClass.fields, List.map_map, Function.comp_def]
  constructor
  · intro h
    by_contra hfit
    unfold CompClass.fits at hfit
    push_neg at hfit
    obtain ⟨p, hp, hpb⟩ := hfit
    have hlt := tokensAux_length_lt self.fields htok ⟨p, hp, hpb⟩ []
    have hlen : (tokens self.to_cir).length = self.fields.length := by
      rw [h, ← hexp, List.length_map]
    rw [tokens, to_cir_fields, List.length_map] at hlen
    omega
  · intro hfit
    rw [tokens, to_cir_fields, tokensAux_fits _ htok hfit, ← hexp]
    simp [List.map_map, Function.comp_def]

/-! ## Claims -/

/-- C1: for every model, name, type name and non-empty net list, `pushComp` returns 0 and
appends exactly the record (name, typeName, nets) at the end of `comps`; for the type name
`"PAD"` it also appends the last net at the end of `subcktNetName` and the name at the end
of `subcktNetDes`; for every other type name both port vectors stay as they were. The
remaining fields are untouched. -/
theorem pushComp_registers (self : JoSimFile) (name compTypeName : String)
    (netNames : List String) (h : netNames ≠ []) :
    ∃ self1, self.pushComp name compTypeName netNames = some (0, self1)
      ∧ self1.comps = self.comps ++ [⟨name, compTypeName, netNames⟩]
      ∧ (compTypeName = "PAD" →
          self1.subcktNetName = self.subcktNetName ++ [netNames.getLast h]
          ∧ self1.subcktNetDes = self.subcktNetDes ++ [name])
      ∧ (compTypeName ≠ "PAD" →
          self1.subcktNetName = self.subcktNetName ∧ self1.subcktNetDes = self.subcktNetDes)
      ∧ self1.subcktName = self.subcktName
      ∧ self1.fileNamesImport = self.fileNamesImport
      ∧ self1.PTLs = self.PTLs := by
  by_cases hp : compTypeName = "PAD"
  · subst hp
    exact ⟨_, pushComp_pad self name netNames h, rfl, fun _ => ⟨rfl, rfl⟩,
      fun hne => absurd rfl hne, rfl, rfl, rfl⟩
  · exact ⟨_, pushComp_other self name compTypeName netNames hp, rfl,
      fun heq => absurd heq hp, fun _ => ⟨rfl, rfl⟩, rfl, rfl, rfl⟩

/-- C1, at the inputs of the spec: a `PAD` named `P0` with nets `n1`, `n2` appends `n2` and
`P0`; the same call with the type `X`, `pad` or `PAD ` appends nothing to the ports. -/
theorem pushComp_registers_witness :
    (∃ self1, (JoSimFile.empty "top").pushComp "P0" "PAD" ["n1", "n2"] = some (0, self1)
      ∧ self1.subcktNetName = ["n2"] ∧ self1.subcktNetDes = ["P0"])
    ∧ (∀ ty ∈ ["X", "pad", "PAD "],
        ∃ self1, (JoSimFile.empty "top").pushComp "P0" ty ["n1", "n2"] = some (0, self1)
          ∧ self1.subcktNetName = [] ∧ self1.subcktNetDes = []) := by
  constructor
  · obtain ⟨s, h1, _, h3, _⟩ :=
      pushComp_registers (JoSimFile.empty "top") "P0" "PAD" ["n1", "n2"] (by decide)
    exact ⟨s, h1, (h3 rfl).1, (h3 rfl).2⟩
  · intro ty hty
    have hne : ty ≠ "PAD" := by
      simp only [List.mem_cons, List.mem_singleton, List.not_mem_nil, or_false] at hty
      rcases hty with rfl | rfl | rfl <;> decide
    obtain ⟨s, h1, _, _, h4, _⟩ :=
      pushComp_registers (JoSimFile.empty "top") "P0" ty ["n1", "n2"] (by decide)
    exact ⟨s, h1, (h4 hne).1, (h4 hne).2⟩

/-- C2: starting from the empty model, after any finite sequence of `importCir`, `pushComp`
(with non-empty net lists) and `pushPTL` calls in any order, the run is defined and
`subcktNetName` and `subcktNetDes` have the same length. -/
theorem ports_same_length (subcktName : String) (calls : List Call)
    (h : ∀ c ∈ calls, c.hasNet) :
    ∃ m, (JoSimFile.empty subcktName).run calls = some m
      ∧ m.subcktNetName.length = m.subcktNetDes.length :=
  run_ports_parallel calls (JoSimFile.empty subcktName) h rfl

/-- C2, on a sequence that mixes the three calls and registers two pads. -/
theorem ports_same_length_witness :
    (∀ c ∈ [Call.importCir "lib.cir", Call.pushComp "P0" "PAD" ["n1", "n2"],
        Call.pushPTL "L1" "n2" 10, Call.pushComp "U1" "AND2" ["a", "b", "c"],
        Call.pushComp "P1" "PAD" ["c"]], c.hasNet)
    ∧ ∃ m, (JoSimFile.empty "top").run
        [Call.importCir "lib.cir", Call.pushComp "P0" "PAD" ["n1", "n2"],
          Call.pushPTL "L1" "n2" 10, Call.pushComp "U1" "AND2" ["a", "b", "c"],
          Call.pushComp "P1" "PAD" ["c"]] = some m
        ∧ m.subcktNetName.length = m.subcktNetDes.length :=
  ⟨by decide, ports_same_length "top" _ (by decide)⟩

/-- C3, counterexample: `pushComp` with the type `X` and an empty net list returns 0, the
success value, and the record with no nets is appended to `comps`; so it is not true that
every call with an empty net list returns a failure value and leaves the model as it was. -/
theorem pushComp_empty_nets_counterexample :
    (JoSimFile.empty "top").pushComp "U1" "X" []
        = some (0, { JoSimFile.empty "top" with comps := [⟨"U1", "X", []⟩] })
    ∧ ¬ ∀ (self : JoSimFile) (name compTypeName : String),
        ∃ code : Int, code ≠ 0 ∧ self.pushComp name compTypeName [] = some (code, self) := by
  refine ⟨by decide, fun hall => ?_⟩
  obtain ⟨code, hcode, heq⟩ := hall (JoSimFile.empty "top") "U1" "X"
  have h0 : (JoSimFile.empty "top").pushComp "U1" "X" []
      = some (0, { JoSimFile.empty "top" with comps := [⟨"U1", "X", []⟩] }) := by decide
  rw [h0] at heq
  simp only [Option.some.injEq, Prod.mk.injEq] at heq
  exact hcode heq.1.symm

/-- C3, amended: for every model, name and type name other than `"PAD"`, `pushComp` with an
empty net list returns 0 and appends the record (name, typeName, no nets) at the end of
`comps`; the port vectors and the other fields stay as they were. -/
theorem pushComp_empty_nets (self : JoSimFile) (name compTypeName : String)
    (h : compTypeName ≠ "PAD") :
    self.pushComp name compTypeName []
      = some (0, { self with comps := self.comps ++ [⟨name, compTypeName, []⟩] }) :=
  pushComp_other self name compTypeName [] h

/-- C3, amended, at the type `X`. -/
theorem pushComp_empty_nets_witness :
    "X" ≠ "PAD"
    ∧ (JoSimFile.empty "top").pushComp "U1" "X" []
      = some (0, { JoSimFile.empty "top" with
          comps := (JoSimFile.empty "top").comps ++ [⟨"U1", "X", []⟩] }) :=
  ⟨by decide, pushComp_empty_nets (JoSimFile.empty "top") "U1" "X" (by decide)⟩

/-- C4: for every component record, `to_cir` returns exactly `"X"` joined to the name,
left-justified in a field of minimum width 20, then the type left-justified in a field of
minimum width 20, then every net in list order, each left-justified in a field of minimum
width 7; a field pads with spaces only and is as long as the longer of its width and its
string, so nothing is cut. For the name `U1`,
the type `AND2` and the nets `a`, `b`, `c` the line has `XU1` at column 0, `AND2` at
column 20 and the nets at columns 40, 47 and 54. -/
theorem to_cir_layout :
    (∀ self : CompClass, self.to_cir
      = ljust 20 ("X" ++ self.name) ++ ljust 20 self.compType
        ++ concatAll (self.nets.map (ljust 7)))
    ∧ (∀ (w : Nat) (s : String),
        ljust w s = s ++ String.mk (List.replicate (w - s.length) ' ')
        ∧ (ljust w s).length = max w s.length)
    ∧ CompClass.to_cir ⟨"U1", "AND2", ["a", "b", "c"]⟩
      = "XU1                 AND2                a      b      c      "
    ∧ (CompClass.to_cir ⟨"U1", "AND2", ["a", "b", "c"]⟩).data.take 3 = "XU1".data
    ∧ ((CompClass.to_cir ⟨"U1", "AND2", ["a", "b", "c"]⟩).data.drop 20).take 4 = "AND2".data
    ∧ ((CompClass.to_cir ⟨"U1", "AND2", ["a", "b", "c"]⟩).data.drop 40).take 1 = "a".data
    ∧ ((CompClass.to_cir ⟨"U1", "AND2", ["a", "b", "c"]⟩).data.drop 47).take 1 = "b".data
    ∧ ((CompClass.to_cir ⟨"U1", "AND2", ["a", "b", "c"]⟩).data.drop 54).take 1 = "c".data := by
  refine ⟨to_cir_eq, fun w s => ⟨rfl, ?_⟩, by decide, by decide, by decide, by decide,
    by decide, by decide⟩
  simp [ljust]
  omega

/-- C7, counterexample: with one pad `P0` on net `n2` in the subcircuit `top` the comment
line is `* <tab>P0`, a tab standing between `* ` and the first designator, and not `* P0`
as the layout of the spec has it. -/
theorem createSubcktHeader_counterexample :
    JoSimFile.createSubcktHeader ⟨"top", [], [], [], ["n2"], ["P0"]⟩
        = "* \tP0\n.SUBCKT top\tn2"
    ∧ renderPortHeader_spec ⟨"top", [], [], [], ["n2"], ["P0"]⟩ = "* P0\n.SUBCKT top\tn2"
    ∧ JoSimFile.createSubcktHeader ⟨"top", [], [], [], ["n2"], ["P0"]⟩
        ≠ renderPortHeader_spec ⟨"top", [], [], [], ["n2"], ["P0"]⟩ := by
  decide

/-- C7, amended: for every model `createSubcktHeader` returns the comment line `* ` followed
by every port designator in registration order, each preceded by one tab (the first one
too), one newline, and the declaration line `.SUBCKT ` with the subcircuit name followed by
every port net in registration order, each preceded by one tab; nothing is sorted or
dropped, so the i-th designator stands where the i-th net stands. -/
theorem createSubcktHeader_layout (self : JoSimFile) :
    self.createSubcktHeader
      = "* " ++ concatAll (self.subcktNetDes.map fun d => "\t" ++ d) ++ "\n"
        ++ (".SUBCKT " ++ self.subcktName
          ++ concatAll (self.subcktNetName.map fun n => "\t" ++ n)) := by
  unfold JoSimFile.createSubcktHeader
  dsimp only
  rw [foldl_append_tab, foldl_append_tab]
  have hs : "\n.SUBCKT " = "\n" ++ ".SUBCKT " := by decide
  rw [hs]
  simp only [String.append_assoc]

/-- C10, the code at the failing input: for a label of 73 characters the loop bound
`(74 - 73)/2 - 1` is `0 - 1` in unsigned arithmetic, the largest 64-bit value, far above
`INT_MAX`; the loop does not stop at zero iterations and `makeHeader` does not return the
banner with no `=` beside the label. -/
theorem makeHeader_long_label :
    headerBound 73 = 2 ^ 64 - 1
    ∧ makeHeader (String.mk (List.replicate 73 'a')) = none
    ∧ makeHeader (String.mk (List.replicate 73 'a'))
        ≠ some (makeHeader_spec (String.mk (List.replicate 73 'a'))) := by
  decide

/-- C5, the code at the failing input: with a name of 19 characters the field `"X"` joined to
the name fills its 20 columns, no space separates it from the type, and splitting the line
on whitespace gives one merged token in place of the first two; with a net of 7 characters
the net fills its 7 columns and merges with the net after it. -/
theorem to_cir_merges_tokens :
    (isToken "U123456789012345678" ∧ isToken "AND2" ∧ ∀ n ∈ ["a", "b", "c"], isToken n)
    ∧ CompClass.to_cir ⟨"U123456789012345678", "AND2", ["a", "b", "c"]⟩
        = "XU123456789012345678AND2                a      b      c      "
    ∧ tokens (CompClass.to_cir ⟨"U123456789012345678", "AND2", ["a", "b", "c"]⟩)
        = ["XU123456789012345678AND2", "a", "b", "c"]
    ∧ tokens (CompClass.to_cir ⟨"U123456789012345678", "AND2", ["a", "b", "c"]⟩)
        ≠ ["XU123456789012345678", "AND2", "a", "b", "c"]
    ∧ (isToken "U1" ∧ isToken "AND2" ∧ ∀ n ∈ ["net1234", "b"], isToken n)
    ∧ tokens (CompClass.to_cir ⟨"U1", "AND2", ["net1234", "b"]⟩) = ["XU1", "AND2", "net1234b"]
    ∧ tokens (CompClass.to_cir ⟨"U1", "AND2", ["net1234", "b"]⟩)
        ≠ ["XU1", "AND2", "net1234", "b"] := by
  decide

set_option maxRecDepth 100000 in
set_option exponentiation.threshold 2000 in
/-- C6, counterexample: for the line `L1` on net `A` of length 10 with the speed constant
0.1 the delay 1.0 is printed as `1`: the line ends in `TD=1p` and does not contain
`TD=1.00p`. -/
theorem PTL_to_cir_counterexample :
    PTLclass.to_cir ⟨1, 1, by norm_num⟩ ⟨"L1", "A", 10⟩
        = "    TL1    AA   0    AB   0  LOSSLESS Z0=5.00  TD=1p"
    ∧ ¬ ("TD=1.00p".data <:+: (PTLclass.to_cir ⟨1, 1, by norm_num⟩ ⟨"L1", "A", 10⟩).data) := by
  decide

/-- C6, amended: for every transmission-line record and speed constant the line of `to_cir`
ends with `  LOSSLESS Z0=5.00  TD=`, the delay and a `p` with no space before it. The delay
is `length × speedConstant` as the machine computes it in `double` (`IsDelay`), printed in
the default notation at precision 2 (`IsGeneralText`): rounded to two significant digits,
ties to even, in fixed notation when the exponent of the rounded value is from -4 to 1 and
in exponent notation otherwise, trailing zeros and a bare point removed. When the name and
the net name hold no whitespace and the net name has at most 4 characters, the tokens of
the line are `"T"` joined to the name, the node `nameNet` joined to `"A"`, the ground token
`0`, the node `nameNet` joined to `"B"`, the ground token `0`, `LOSSLESS`, `Z0=5.00` and
`TD=` joined to the delay and `p`, in this order. -/
theorem PTL_to_cir_line (speedConstant : SpeedConstant) (self : PTLclass) :
    ∃ (d : Double) (text front : String),
      IsDelay speedConstant self.length d ∧ IsGeneralText d text
      ∧ self.to_cir speedConstant = front ++ "  LOSSLESS Z0=5.00  TD=" ++ text ++ "p"
      ∧ (noSpace self.name → noSpace self.nameNet → self.nameNet.length < 5 →
          tokens (self.to_cir speedConstant)
            = ["T" ++ self.name, self.nameNet ++ "A", "0", self.nameNet ++ "B", "0",
                "LOSSLESS", "Z0=5.00", "TD=" ++ text ++ "p"]) := by
  have htext := fmtDouble_spec (delay speedConstant self.length)
    (delay_den_pos speedConstant self.length)
  refine ⟨delay speedConstant self.length, fmtDouble 2 (delay speedConstant self.length),
    rjust 7 ("T" ++ self.name) ++ rjust 6 (self.nameNet ++ "A") ++ "   0"
      ++ rjust 6 (self.nameNet ++ "B") ++ "   0",
    delay_spec speedConstant self.length, htext, PTL_to_cir_eq speedConstant self, ?_⟩
  intro hname hnet hlen
  rw [PTL_to_cir_eq]
  exact PTL_line_tokens self.name self.nameNet _ hname hnet hlen
    (generalText_noSpace_of _ _ htext)

/-- C6, amended, at the line of the spec: `L1` on net `A` of length 10 with the speed
constant 0.1. -/
theorem PTL_to_cir_line_witness :
    (noSpace "L1" ∧ noSpace "A" ∧ "A".length < 5)
    ∧ ∃ (d : Double) (text front : String),
        IsDelay ⟨1, 1, by norm_num⟩ 10 d ∧ IsGeneralText d text
        ∧ PTLclass.to_cir ⟨1, 1, by norm_num⟩ ⟨"L1", "A", 10⟩
            = front ++ "  LOSSLESS Z0=5.00  TD=" ++ text ++ "p"
        ∧ tokens (PTLclass.to_cir ⟨1, 1, by norm_num⟩ ⟨"L1", "A", 10⟩)
            = ["T" ++ "L1", "A" ++ "A", "0", "A" ++ "B", "0", "LOSSLESS", "Z0=5.00",
                "TD=" ++ text ++ "p"] := by
  obtain ⟨d, text, front, h1, h2, h3, h4⟩ :=
    PTL_to_cir_line ⟨1, 1, by norm_num⟩ ⟨"L1", "A", 10⟩
  exact ⟨⟨by decide, by decide, by decide⟩, d, text, front, h1, h2, h3,
    h4 (by decide) (by decide) (by decide)⟩

set_option maxRecDepth 100000 in
set_option exponentiation.threshold 2000 in
/-- C8, the code at the failing input: the import `f1.cir` holds the bytes `A`, 0xFF, `B`,
newline and `f2.cir` holds `C`, newline. `genCir` returns 1, and after the file header the
output has `A` directly followed by the content of `f2.cir`: the copy of `f1.cir` stops at
the byte 0xFF, which the `char` variable of `cpFile` takes for `EOF`. -/
theorem genCir_cuts_import_at_0xFF :
    (cpFile "f1.cir" "out.cir"
        ⟨fun p => if p = "f1.cir" then some "A\xffB\n" else none, fun _ => true⟩).map
        (fun r => (r.1, r.2.content "out.cir")) = some (1, some "A")
    ∧ (JoSimFile.genCir "Thu Apr 25 12:00:00 2019\n" ⟨1, 1, by norm_num⟩
        ⟨"top", ["f1.cir", "f2.cir"], [], [], [], []⟩ "out.cir"
        ⟨fun p => if p = "f1.cir" then some "A\xffB\n"
          else if p = "f2.cir" then some "C\n" else none, fun _ => true⟩).map
        (fun r => (r.1, r.2.content "out.cir"))
      = some (1, some ("* JoSIM file generated with Die2Sim, Thu Apr 25 12:00:00 2019\n"
          ++ "\n* Jude de Villiers, Stellenbosch University\n\n"
          ++ "A" ++ "C\n"
          ++ "\n\n* " ++ equalsRun 74 ++ "\n"
          ++ "* ================================== top ==================================\n"
          ++ "* " ++ equalsRun 74 ++ "\n\n\n"
          ++ "* \n.SUBCKT top\n"
          ++ "\n\n* " ++ equalsRun 74 ++ "\n"
          ++ "* =============================== Components ===============================\n"
          ++ "* " ++ equalsRun 74 ++ "\n\n\n"
          ++ "\n\n* " ++ equalsRun 74 ++ "\n"
          ++ "* ======================= Passive Transmission Lines =======================\n"
          ++ "* " ++ equalsRun 74 ++ "\n\n\n"
          ++ ".ends Created_subckt\n")) := by
  decide

set_option maxRecDepth 100000 in
set_option exponentiation.threshold 2000 in
/-- C9, the code at the failing input: of the two imports `missing.cir` cannot be opened and
`lib.cir` holds a comment line with the byte 0xFF and a model line. `genCir` returns 1 and
skips the missing import, but of `lib.cir` only the bytes before 0xFF reach the output; the
banners, the port header, the component line, the transmission line and the closing
statement follow. -/
theorem genCir_missing_import_cut_at_0xFF :
    (JoSimFile.genCir "Thu Apr 25 12:00:00 2019\n" ⟨1, 1, by norm_num⟩
        ⟨"top", ["missing.cir", "lib.cir"], [⟨"P0", "PAD", ["n1", "n2"]⟩],
          [⟨"L1", "n2", 10⟩], ["n2"], ["P0"]⟩ "out.cir"
        ⟨fun p => if p = "lib.cir" then some "* lib\xff\n.model jj\n" else none,
          fun _ => true⟩).map
        (fun r => (r.1, r.2.content "out.cir"))
      = some (1, some ("* JoSIM file generated with Die2Sim, Thu Apr 25 12:00:00 2019\n"
          ++ "\n* Jude de Villiers, Stellenbosch University\n\n"
          ++ "* lib"
          ++ "\n\n* " ++ equalsRun 74 ++ "\n"
          ++ "* ================================== top ==================================\n"
          ++ "* " ++ equalsRun 74 ++ "\n\n\n"
          ++ "* \tP0\n.SUBCKT top\tn2\n"
          ++ "\n\n* " ++ equalsRun 74 ++ "\n"
          ++ "* =============================== Components ===============================\n"
          ++ "* " ++ equalsRun 74 ++ "\n\n\n"
          ++ "XP0                 PAD                 n1     n2     \n"
          ++ "\n\n* " ++ equalsRun 74 ++ "\n"
          ++ "* ======================= Passive Transmission Lines =======================\n"
          ++ "* " ++ equalsRun 74 ++ "\n\n\n"
          ++ "    TL1   n2A   0   n2B   0  LOSSLESS Z0=5.00  TD=1p\n"
          ++ ".ends Created_subckt\n")) := by
  decide

end Die2Sim
